import Mathlib

/-!
# OpenTitan I2C host driver (Sunburst platform): a shallow embedding

Source: `sdk/include/platform/sunburst/platform-i2c.hh`.

Machine integers are natural numbers reduced modulo `2^8` / `2^16` / `2^32`
wherever the C++ value is stored into a `uint8_t` / `uint16_t` / `uint32_t`.
The register block is the structure `OpenTitanI2c`; the plain accessors of the
driver are functions on it.  The polling code (`blocking_write`, `write`,
`read`) runs against a `Bus`, which supplies the value that the hardware
presents at each volatile load, and every loop carries an iteration bound
(`fuel`); running out of it yields `none`.  Undefined behaviour (division by
zero) yields `none` as well.

The file has three parts: the embedding and the specification-side
definitions, the lemmas, and the claims `C1 ..` in order.
-/

namespace I2c

/-! ## Machine words -/

/-- Number of values of a `uint32_t`. -/
abbrev U32 : Nat := 4294967296

/-- Number of values of a `uint16_t`. -/
abbrev U16 : Nat := 65536

/-- Number of values of a `uint8_t`. -/
abbrev U8 : Nat := 256

/-- The constant `UINT8_MAX`. -/
abbrev UINT8_MAX : Nat := 255

/-- Subtraction of two `uint32_t` values (wraps modulo `2^32`). -/
def sub32 (a b : Nat) : Nat := (a % U32 + U32 - b % U32) % U32

/-- Bitwise complement of a `uint32_t` value. -/
def not32 (a : Nat) : Nat := U32 - 1 - a % U32

/-! ## Specification tables (lines 10-17) -/

def SpcThigh : List Nat := [4000, 600, 260]
def SpcTlow : List Nat := [4700, 1300, 150]
def SpcThdSta : List Nat := [4000, 600, 260]
def SpcTsuSta : List Nat := [4700, 600, 260]
def SpcThdDat : List Nat := [5000, 1, 1]
def SpcTsuDat : List Nat := [250, 100, 50]
def SpcTBuf : List Nat := [4700, 1300, 500]
def SpcTsuSto : List Nat := [4000, 600, 260]

/-- Function `round_up_divide` (lines 25-29): `((A - 1) / B) + 1` in 32-bit unsigned
arithmetic, truncated to 16 bits.  A zero divisor is undefined behaviour and
yields `none`. -/
def round_up_divide (A B : Nat) : Option Nat :=
  if B % U32 = 0 then none
  else some (((sub32 A 1 / (B % U32) + 1) % U32) % U16)

/-! ## Interrupts (lines 31-84) -/

/-- The enumeration `OpenTitanI2cIntr`, in declaration order. -/
inductive OpenTitanI2cIntr
  | FmtThreshold
  | RxThreshold
  | AcqThreshold
  | RxOverflow
  | Nak
  | SclInterference
  | SdaInterference
  | StretchTimeout
  | SdaUnstable
  | CmdComplete
  | TxStretch
  | TxThreshold
  | AcqFull
  | UnexpStop
  | HostTimeout
  deriving DecidableEq, Repr

/-- The underlying value of an enumerator (`static_cast<uint32_t>`). -/
def OpenTitanI2cIntr.toNat : OpenTitanI2cIntr → Nat
  | .FmtThreshold => 0
  | .RxThreshold => 1
  | .AcqThreshold => 2
  | .RxOverflow => 3
  | .Nak => 4
  | .SclInterference => 5
  | .SdaInterference => 6
  | .StretchTimeout => 7
  | .SdaUnstable => 8
  | .CmdComplete => 9
  | .TxStretch => 10
  | .TxThreshold => 11
  | .AcqFull => 12
  | .UnexpStop => 13
  | .HostTimeout => 14

/-- Function `interrupt_bit` (lines 81-84): `1 << static_cast<uint32_t>(Interrupt)`. -/
def interrupt_bit (Interrupt : OpenTitanI2cIntr) : Nat :=
  (1 <<< Interrupt.toNat) % U32

/-! ## The register block (lines 93-158) -/

/-- The register block `OpenTitanI2c`: twenty-eight 32-bit registers in declaration
order. -/
structure OpenTitanI2c where
  intrState : Nat
  intrEnable : Nat
  intrTest : Nat
  alertTest : Nat
  ctrl : Nat
  status : Nat
  rData : Nat
  fData : Nat
  fifoCtrl : Nat
  hostFifoConfig : Nat
  targetFifoConfig : Nat
  hostFifoStatus : Nat
  targetFifoStatus : Nat
  ovrd : Nat
  val : Nat
  timing0 : Nat
  timing1 : Nat
  timing2 : Nat
  timing3 : Nat
  timing4 : Nat
  timeoutCtrl : Nat
  targetId : Nat
  acqdata : Nat
  txdata : Nat
  hostTimeoutCtrl : Nat
  targetTimeoutCtrl : Nat
  targetNackCount : Nat
  targetAckCtrl : Nat
  deriving DecidableEq, Repr

/-! Status register bits (lines 161-186). -/

def StatusFmtFull : Nat := 1 <<< 0
def StatusRxFull : Nat := 1 <<< 1
def StatusFmtEmpty : Nat := 1 <<< 2
def StatusHostIdle : Nat := 1 <<< 3
def StatusTargetIdle : Nat := 1 <<< 4
def StatusRxEmpty : Nat := 1 <<< 5
def StatusTxFull : Nat := 1 <<< 6
def StatusAcqFull : Nat := 1 <<< 7
def StatusTxEmpty : Nat := 1 <<< 8
def StatusAcqEmpty : Nat := 1 <<< 9
def StatusAckCtrlStretch : Nat := 1 <<< 10

/-! Format-data flags (lines 188-201). -/

def FDataStart : Nat := 1 <<< 8
def FDataStop : Nat := 1 <<< 9
def FDataReadB : Nat := 1 <<< 10
def FDataRCont : Nat := 1 <<< 11
def FDataNAkOk : Nat := 1 <<< 12

/-! FIFO control bits (lines 203-214). -/

def FifoCtrlRxRst : Nat := 1 <<< 0
def FifoCtrlFmtRst : Nat := 1 <<< 1
def FifoCtrlAcqRst : Nat := 1 <<< 7
def FifoCtrlTxRst : Nat := 1 <<< 8

/-- Function `reset_fifos` (lines 216-220). -/
def reset_fifos (r : OpenTitanI2c) : OpenTitanI2c :=
  { r with fifoCtrl := FifoCtrlRxRst ||| FifoCtrlFmtRst ||| FifoCtrlAcqRst ||| FifoCtrlTxRst }

/-- Function `set_host_mode` (lines 222-225). -/
def set_host_mode (r : OpenTitanI2c) : OpenTitanI2c :=
  { r with ctrl := 1 }

/-! ## Timing (lines 232-269) -/

/-- The constant `SysclkKhz` of `set_speed` (line 235), for a device clock
`I2cDevClockHz` (the build-time constant `CPU_TIMER_HZ`, a parameter here). -/
def SysclkKhz (I2cDevClockHz : Nat) : Nat :=
  ((I2cDevClockHz % U32 + 999) % U32) / 1000

/-- The local `clkPeriod` of `set_speed` (line 237); dividing by a zero
`SysclkKhz` is undefined and yields `none`. -/
def clkPeriod (I2cDevClockHz : Nat) : Option Nat :=
  if SysclkKhz I2cDevClockHz = 0 then none
  else some ((1000 * 1000) / SysclkKhz I2cDevClockHz)

/-- The local `mode` of `set_speed` (line 240). -/
def busMode (SpeedKhz : Nat) : Nat :=
  (if SpeedKhz % U32 > 100 then 1 else 0) + (if SpeedKhz % U32 > 400 then 1 else 0)

/-- The ten `uint16_t` locals of `set_speed` as they stand at line 263, after the
two clamps. -/
structure Timings where
  tHigh : Nat
  tLow : Nat
  tFall : Nat
  tRise : Nat
  thdSta : Nat
  tsuSta : Nat
  thdDat : Nat
  tsuDat : Nat
  tBuf : Nat
  tsuSto : Nat
  deriving DecidableEq, Repr

/-- Lines 243-262 of `set_speed`: the ten round-up divisions followed by the two
clamps.  Each comparison and each `+ 1u` happens in 32-bit unsigned
arithmetic; the assignment back to the `uint16_t` local truncates. -/
def computeTimings (mode period : Nat) : Option Timings := do
  let tHigh ← round_up_divide (SpcThigh.getD mode 0) period
  let tLow ← round_up_divide (SpcTlow.getD mode 0) period
  let tFall ← round_up_divide (20 * 3 / 5) period
  let tRise ← round_up_divide 120 period
  let thdSta ← round_up_divide (SpcThdSta.getD mode 0) period
  let tsuSta ← round_up_divide (SpcTsuSta.getD mode 0) period
  let thdDat ← round_up_divide (SpcThdDat.getD mode 0) period
  let tsuDat ← round_up_divide (SpcTsuDat.getD mode 0) period
  let tBuf ← round_up_divide (SpcTBuf.getD mode 0) period
  let tsuSto ← round_up_divide (SpcTsuSto.getD mode 0) period
  let tLow := if tLow < (thdDat + 1) % U32 then ((thdDat + 1) % U32) % U16 else tLow
  let tBuf := if tBuf < (tsuSta + 1) % U32 then ((tsuSta + 1) % U32) % U16 else tBuf
  some { tHigh := tHigh, tLow := tLow, tFall := tFall, tRise := tRise, thdSta := thdSta,
         tsuSta := tsuSta, thdDat := thdDat, tsuDat := tsuDat, tBuf := tBuf, tsuSto := tsuSto }

/-- Lines 264-268 of `set_speed`: the five packed register stores. -/
def storeTimings (t : Timings) (r : OpenTitanI2c) : OpenTitanI2c :=
  { r with
    timing0 := ((t.tLow <<< 16) ||| t.tHigh) % U32
    timing1 := ((t.tFall <<< 16) ||| t.tRise) % U32
    timing2 := ((t.thdSta <<< 16) ||| t.tsuSta) % U32
    timing3 := ((t.thdDat <<< 16) ||| t.tsuDat) % U32
    timing4 := ((t.tBuf <<< 16) ||| t.tsuSto) % U32 }

/-- Function `set_speed` (lines 232-269) for a device clock `I2cDevClockHz`. -/
def set_speed (I2cDevClockHz : Nat) (SpeedKhz : Nat) (r : OpenTitanI2c) : Option OpenTitanI2c := do
  let period ← clkPeriod I2cDevClockHz
  let t ← computeTimings (busMode SpeedKhz) period
  some (storeTimings t r)

/-! ## Interrupt and threshold accessors (lines 326-351) -/

/-- Function `interrupt_asserted` (lines 326-330). -/
def interrupt_asserted (r : OpenTitanI2c) (Interrupt : OpenTitanI2cIntr) : Bool :=
  decide (0 ≠ (r.intrState &&& interrupt_bit Interrupt))

/-- Function `clear_interrupt` (lines 332-335). -/
def clear_interrupt (r : OpenTitanI2c) (Interrupt : OpenTitanI2cIntr) : OpenTitanI2c :=
  { r with intrState := r.intrState &&& not32 (interrupt_bit Interrupt) }

/-- Function `enable_interrupt` (lines 337-340). -/
def enable_interrupt (r : OpenTitanI2c) (Interrupt : OpenTitanI2cIntr) : OpenTitanI2c :=
  { r with intrEnable := (r.intrEnable ||| interrupt_bit Interrupt) % U32 }

/-- Function `disable_interrupt` (lines 342-345). -/
def disable_interrupt (r : OpenTitanI2c) (Interrupt : OpenTitanI2cIntr) : OpenTitanI2c :=
  { r with intrEnable := r.intrEnable &&& not32 (interrupt_bit Interrupt) }

/-- Function `set_host_thresholds` (lines 347-351). -/
def set_host_thresholds (r : OpenTitanI2c) (FmtThresh RxThresh : Nat) : OpenTitanI2c :=
  { r with hostFifoConfig :=
      ((((FmtThresh % U16) &&& 0xfff) <<< 16) ||| ((RxThresh % U16) &&& 0xfff)) % U32 }

/-- Function `fmt_empty` (lines 277-280), on the register block as last loaded. -/
def fmt_empty (r : OpenTitanI2c) : Bool :=
  decide (0 ≠ (StatusFmtEmpty &&& r.status))

/-! ## The bus and the driver state -/

/-- What the hardware presents at volatile loads: `status n` is the value of the
`n`-th load of the `status` register, and likewise for `intrState` and `rData`
(each load of `rData` pops the RX FIFO). -/
structure Bus where
  status : Nat → Nat
  intrState : Nat → Nat
  rData : Nat → Nat

/-- The driver-visible state: the register block as last loaded or stored, the
words stored to `fData` so far (oldest first), and the number of volatile loads
of `status`, `intrState` and `rData` performed so far. -/
structure Mmio where
  regs : OpenTitanI2c
  fmtFifo : List Nat
  statusLoads : Nat
  intrLoads : Nat
  rDataLoads : Nat

/-- A volatile load of `status`: the hardware value replaces the register. -/
def loadStatus (bus : Bus) (m : Mmio) : Mmio :=
  { m with regs := { m.regs with status := bus.status m.statusLoads % U32 },
           statusLoads := m.statusLoads + 1 }

/-- A volatile load of `intrState`. -/
def loadIntrState (bus : Bus) (m : Mmio) : Mmio :=
  { m with regs := { m.regs with intrState := bus.intrState m.intrLoads % U32 },
           intrLoads := m.intrLoads + 1 }

/-- A volatile load of `rData`. -/
def loadRData (bus : Bus) (m : Mmio) : Mmio :=
  { m with regs := { m.regs with rData := bus.rData m.rDataLoads % U32 },
           rDataLoads := m.rDataLoads + 1 }

/-- A volatile store to `fData`: the word enters the format FIFO. -/
def storeFData (Fmt : Nat) (m : Mmio) : Mmio :=
  { m with regs := { m.regs with fData := Fmt % U32 },
           fmtFifo := m.fmtFifo ++ [Fmt % U32] }

/-- Function `blocking_write` (lines 271-275): poll `status` while `StatusFmtFull`
is set, then store `Fmt` to `fData`.  At most `fuel` polls. -/
def blocking_write (bus : Bus) : Nat → Nat → Mmio → Option Mmio
  | 0, _, _ => none
  | fuel + 1, Fmt, m =>
    let m1 := loadStatus bus m
    if 0 ≠ (StatusFmtFull &&& m1.regs.status) then blocking_write bus fuel Fmt m1
    else some (storeFData Fmt m1)

/-- The loop `while (!fmt_empty()) {}` (lines 303 and 316).  At most `fuel` polls. -/
def wait_fmt_empty (bus : Bus) : Nat → Mmio → Option Mmio
  | 0, _ => none
  | fuel + 1, m =>
    let m1 := loadStatus bus m
    if !fmt_empty m1.regs then wait_fmt_empty bus fuel m1
    else some m1

/-- A byte buffer in memory, addressed by offset from its base pointer. -/
abbrev Buffer := Nat → Nat

/-- The store `buf[i] = v` of a `uint8_t`. -/
def Buffer.set (buf : Buffer) (i v : Nat) : Buffer :=
  fun j => if j = i then v % U8 else buf j

/-- The loop of lines 290-293 of `write`, entered with loop variable `i`. -/
def write_loop (bus : Bus) (spin : Nat) (data : Buffer) (NumBytes : Nat) :
    Nat → Nat → Mmio → Option Mmio
  | 0, _, _ => none
  | fuel + 1, i, m =>
    if i < sub32 NumBytes 1 then do
      let m1 ← blocking_write bus spin (data i % U8) m
      write_loop bus spin data NumBytes fuel ((i + 1) % U32) m1
    else some m

/-- Function `write` (lines 282-295).  Every loop runs at most `fuel` iterations. -/
def write (bus : Bus) (fuel : Nat) (Addr7 : Nat) (data : Buffer) (NumBytes : Nat)
    (SkipStop : Bool) (m : Mmio) : Option Mmio :=
  if NumBytes % U32 = 0 then some m
  else do
    let m1 ← blocking_write bus fuel (FDataStart ||| ((Addr7 % U8) <<< 1) ||| 0) m
    let m2 ← write_loop bus fuel data (NumBytes % U32) fuel 0 m1
    blocking_write bus fuel
      ((if SkipStop then 0 else FDataStop) ||| (data (sub32 NumBytes 1) % U8)) m2

/-- The loop of lines 318-321 of `read`, entered with loop variable `chunkIdx`. -/
def read_drain (bus : Bus) (idx chunkSize : Nat) :
    Nat → Nat → Buffer → Mmio → Option (Buffer × Mmio)
  | 0, _, _, _ => none
  | fuel + 1, chunkIdx, buf, m =>
    if chunkIdx < chunkSize then
      let m1 := loadRData bus m
      read_drain bus idx chunkSize fuel ((chunkIdx + 1) % U32)
        (buf.set ((idx + chunkIdx) % U32) m1.regs.rData) m1
    else some (buf, m)

/-- The call `clear_interrupt(Interrupt)` on the live register block (line 334):
a volatile load of `intrState`, then the store of the masked value. -/
def clear_interrupt_live (bus : Bus) (Interrupt : OpenTitanI2cIntr) (m : Mmio) : Mmio :=
  let m1 := loadIntrState bus m
  { m1 with regs := clear_interrupt m1.regs Interrupt }

/-- The loop of lines 300-322 of `read`, entered with loop variable `idx`.  The
result carries the return value when the function returns from inside the loop
(`false`, line 307) or after it (`true`, line 323). -/
def read_loop (bus : Bus) (spin : Nat) (Addr7 NumBytes : Nat) :
    Nat → Nat → Buffer → Mmio → Option (Bool × Buffer × Mmio)
  | 0, _, _, _ => none
  | fuel + 1, idx, buf, m =>
    if idx < NumBytes then do
      let m1 ← blocking_write bus spin (FDataStart ||| ((Addr7 % U8) <<< 1) ||| 1) m
      let m2 ← wait_fmt_empty bus spin m1
      let m3 := loadIntrState bus m2
      if interrupt_asserted m3.regs OpenTitanI2cIntr.Nak then
        some (false, buf, clear_interrupt_live bus OpenTitanI2cIntr.Nak m3)
      else
        let bytesRemaining := sub32 NumBytes idx
        let lastChunk := decide (UINT8_MAX ≥ bytesRemaining)
        let chunkSize := if lastChunk then bytesRemaining % U8 else UINT8_MAX
        let m4 ← blocking_write bus spin
          ((if lastChunk then FDataStop else 0) ||| FDataReadB ||| chunkSize) m3
        let m5 ← wait_fmt_empty bus spin m4
        let (buf1, m6) ← read_drain bus idx chunkSize spin 0 buf m5
        read_loop bus spin Addr7 NumBytes fuel ((idx + UINT8_MAX) % U32) buf1 m6
    else some (true, buf, m)

/-- Function `read` (lines 297-324).  Every loop runs at most `fuel` iterations.
The result is the return value, the buffer and the driver state. -/
def read (bus : Bus) (fuel : Nat) (Addr7 : Nat) (buf : Buffer) (NumBytes : Nat) (m : Mmio) :
    Option (Bool × Buffer × Mmio) :=
  read_loop bus fuel Addr7 (NumBytes % U32) fuel 0 buf m

/-- A bus that never stalls and never NAKs: `status` always shows the format FIFO
empty and not full, `intrState` is always zero, and the `n`-th byte received is
`n` modulo 256. -/
def quietBus : Bus :=
  { status := fun _ => StatusFmtEmpty, intrState := fun _ => 0, rData := fun n => n % U8 }

/-- An all-zero register block. -/
def zeroRegs : OpenTitanI2c :=
  { intrState := 0, intrEnable := 0, intrTest := 0, alertTest := 0, ctrl := 0, status := 0,
    rData := 0, fData := 0, fifoCtrl := 0, hostFifoConfig := 0, targetFifoConfig := 0,
    hostFifoStatus := 0, targetFifoStatus := 0, ovrd := 0, val := 0, timing0 := 0,
    timing1 := 0, timing2 := 0, timing3 := 0, timing4 := 0, timeoutCtrl := 0, targetId := 0,
    acqdata := 0, txdata := 0, hostTimeoutCtrl := 0, targetTimeoutCtrl := 0,
    targetNackCount := 0, targetAckCtrl := 0 }

/-- The driver state before any access. -/
def idle : Mmio :=
  { regs := zeroRegs, fmtFifo := [], statusLoads := 0, intrLoads := 0, rDataLoads := 0 }

/-! ## Assumptions on the bus and specification-side definitions -/

/-- From any load of `status` on, some later load shows the format FIFO not
full: every wait in `blocking_write` ends. -/
def Bus.EventuallyNotFull (bus : Bus) : Prop :=
  ∀ n, ∃ k, StatusFmtFull &&& (bus.status (n + k) % U32) = 0

/-- From any load of `status` on, some later load shows the format FIFO empty:
every wait for `fmt_empty` ends. -/
def Bus.EventuallyEmpty (bus : Bus) : Prop :=
  ∀ n, ∃ k, StatusFmtEmpty &&& (bus.status (n + k) % U32) ≠ 0

/-- Every status poll of the driver eventually succeeds. -/
def Bus.Responsive (bus : Bus) : Prop :=
  bus.EventuallyNotFull ∧ bus.EventuallyEmpty

/-- The `n`-th load of `intrState` shows the NAK interrupt (bit 4) asserted. -/
def Bus.nakAt (bus : Bus) (n : Nat) : Prop :=
  (bus.intrState n % U32) &&& interrupt_bit OpenTitanI2cIntr.Nak ≠ 0

instance (bus : Bus) (n : Nat) : Decidable (bus.nakAt n) := by
  unfold Bus.nakAt; infer_instance

/-- A bus that never stalls and on which the target stops acknowledging at chunk
`k`: the first `k` loads of `intrState` show only CmdComplete (bit 9), every
later load shows FmtThreshold, Nak and CmdComplete (bits 0, 4 and 9). -/
def nakBus (k : Nat) : Bus :=
  { status := fun _ => StatusFmtEmpty
    intrState := fun n => if n < k then 0x200 else 0x211
    rData := fun n => n % U8 }

/-- The effect of a stretch of driver code on the driver state: the words it
pushed, and the number of `intrState` and `rData` loads it made; it may also
have polled `status`.  No register other than `status`, `fData`, `rData` and
`intrState` changes, and each of the last three only if it was accessed. -/
structure Step (m m' : Mmio) (pushed : List Nat) (intr rx : Nat) : Prop where
  fmtFifo : m'.fmtFifo = m.fmtFifo ++ pushed
  intrLoads : m'.intrLoads = m.intrLoads + intr
  rDataLoads : m'.rDataLoads = m.rDataLoads + rx
  statusLoads : m.statusLoads ≤ m'.statusLoads
  regs : m'.regs = { m.regs with status := m'.regs.status, fData := m'.regs.fData,
                                 rData := m'.regs.rData, intrState := m'.regs.intrState }
  intrKeep : intr = 0 → m'.regs.intrState = m.regs.intrState
  rDataKeep : rx = 0 → m'.regs.rData = m.regs.rData
  fDataKeep : pushed = [] → m'.regs.fData = m.regs.fData

/-- The number of chunks of a read of `N` bytes: `N / 255` rounded up. -/
def readChunks (N : Nat) : Nat := (N + 254) / 255

/-- The two words of chunk `c` of a read of `N` bytes, as the specification lists
them: the address word with Start and the read bit, then the read word, which
is `ReadB | 255` for every chunk but the last and `Stop | ReadB | rest` for
the last, `rest` being the bytes left after the earlier chunks. -/
def specChunkPushes (Addr7 N c : Nat) : List Nat :=
  [FDataStart ||| (Addr7 <<< 1) ||| 1,
   if c + 1 < readChunks N then FDataReadB ||| 255
   else FDataStop ||| FDataReadB ||| (N - 255 * (readChunks N - 1))]

/-- The words of chunks `c, c + 1, ..., c + k - 1` in order. -/
def specReadPushesFrom (Addr7 N : Nat) : Nat → Nat → List Nat
  | _, 0 => []
  | c, k + 1 => specChunkPushes Addr7 N c ++ specReadPushesFrom Addr7 N (c + 1) k

/-- The words that the specification lists for a read of `N` bytes. -/
def specReadPushes (Addr7 N : Nat) : List Nat :=
  specReadPushesFrom Addr7 N 0 (readChunks N)

/-- The words that the specification lists for a write of `N ≥ 1` bytes: the
address word with Start and the write bit, the first `N - 1` bytes as plain
words, and the last byte, combined with Stop unless `SkipStop`. -/
def specWritePushes (Addr7 : Nat) (data : Buffer) (N : Nat) (SkipStop : Bool) : List Nat :=
  [FDataStart ||| (Addr7 <<< 1) ||| 0]
    ++ (List.range (N - 1)).map (fun i => data i % U8)
    ++ [if SkipStop then data (N - 1) % U8 else (data (N - 1) % U8) ||| FDataStop]


/-- Round-up division as the specification words it: the quotient rounded
toward positive infinity. -/
def ceilDiv (a b : Nat) : Nat := (a + b - 1) / b

/-- The specification minimum, in nanoseconds, of each timing quantity in bus mode
`mode`: the table entries, with 12 ns for `tFall` and 120 ns for `tRise`. -/
def specNs (mode : Nat) : Timings :=
  { tHigh := SpcThigh.getD mode 0, tLow := SpcTlow.getD mode 0, tFall := 12, tRise := 120,
    thdSta := SpcThdSta.getD mode 0, tsuSta := SpcTsuSta.getD mode 0,
    thdDat := SpcThdDat.getD mode 0, tsuDat := SpcTsuDat.getD mode 0,
    tBuf := SpcTBuf.getD mode 0, tsuSto := SpcTsuSto.getD mode 0 }

/-- The timing values that lines 243-262 are meant to produce, without any
truncation: the rounded-up quotients, with `tLow` and `tBuf` raised to
`thdDat + 1` and `tsuSta + 1` when they are smaller. -/
def idealTimings (mode period : Nat) : Timings :=
  { tHigh := ceilDiv (specNs mode).tHigh period
    tLow := max (ceilDiv (specNs mode).tLow period) (ceilDiv (specNs mode).thdDat period + 1)
    tFall := ceilDiv 12 period
    tRise := ceilDiv 120 period
    thdSta := ceilDiv (specNs mode).thdSta period
    tsuSta := ceilDiv (specNs mode).tsuSta period
    thdDat := ceilDiv (specNs mode).thdDat period
    tsuDat := ceilDiv (specNs mode).tsuDat period
    tBuf := max (ceilDiv (specNs mode).tBuf period) (ceilDiv (specNs mode).tsuSta period + 1)
    tsuSto := ceilDiv (specNs mode).tsuSto period }

/-- The sixteen-bit halves of `timing0 .. timing4`, each named by the quantity that
lines 264-268 store in it (upper half first: `tLow`/`tHigh`, `tFall`/`tRise`,
`thdSta`/`tsuSta`, `thdDat`/`tsuDat`, `tBuf`/`tsuSto`). -/
def unpackTimings (r : OpenTitanI2c) : Timings :=
  { tLow := r.timing0 / U16, tHigh := r.timing0 % U16
    tFall := r.timing1 / U16, tRise := r.timing1 % U16
    thdSta := r.timing2 / U16, tsuSta := r.timing2 % U16
    thdDat := r.timing3 / U16, tsuDat := r.timing3 % U16
    tBuf := r.timing4 / U16, tsuSto := r.timing4 % U16 }

/-- A relation that holds between each of the ten quantities of two timing sets. -/
def Timings.Forall₂ (R : Nat → Nat → Prop) (a b : Timings) : Prop :=
  R a.tHigh b.tHigh ∧ R a.tLow b.tLow ∧ R a.tFall b.tFall ∧ R a.tRise b.tRise ∧
  R a.thdSta b.thdSta ∧ R a.tsuSta b.tsuSta ∧ R a.thdDat b.thdDat ∧ R a.tsuDat b.tsuDat ∧
  R a.tBuf b.tBuf ∧ R a.tsuSto b.tsuSto

/-- The fifteen enumerators of `OpenTitanI2cIntr` in declaration order. -/
def OpenTitanI2cIntr.all : List OpenTitanI2cIntr :=
  [.FmtThreshold, .RxThreshold, .AcqThreshold, .RxOverflow, .Nak, .SclInterference,
   .SdaInterference, .StretchTimeout, .SdaUnstable, .CmdComplete, .TxStretch, .TxThreshold,
   .AcqFull, .UnexpStop, .HostTimeout]

/-- The five flag bits of a format word (lines 188-201), bits 8 to 12. -/
def FDataFlags : List Nat := [FDataStart, FDataStop, FDataReadB, FDataRCont, FDataNAkOk]

/-- The word `w` is a 13-bit format word whose low 8 bits are `byte` and whose set
flag bits are exactly the members of `flags`. -/
def IsFmtWord (w byte : Nat) (flags : List Nat) : Prop :=
  w < 2 ^ 13 ∧ w % 256 = byte ∧ ∀ f ∈ FDataFlags, (w &&& f ≠ 0 ↔ f ∈ flags)

/-- What the specification allows `write` to push: the address word with the
write bit and only Start, or a data byte with no flag or only Stop. -/
def IsWriteWord (Addr7 : Nat) (data : Buffer) (w : Nat) : Prop :=
  IsFmtWord w ((Addr7 <<< 1) ||| 0) [FDataStart] ∨
  ∃ i, IsFmtWord w (data i % U8) [] ∨ IsFmtWord w (data i % U8) [FDataStop]

/-- What the specification allows `read` to push: the address word with the read
bit and only Start, or a chunk size between 1 and 255 with ReadB, or with
ReadB and Stop. -/
def IsReadWord (Addr7 : Nat) (w : Nat) : Prop :=
  IsFmtWord w ((Addr7 <<< 1) ||| 1) [FDataStart] ∨
  ∃ cs, 1 ≤ cs ∧ cs ≤ 255 ∧
    (IsFmtWord w cs [FDataReadB] ∨ IsFmtWord w cs [FDataReadB, FDataStop])

/-! # Lemmas -/

/-! ## Bit-level lemmas -/

theorem U32_eq : U32 = 2 ^ 32 := by norm_num [U32]

theorem interrupt_bit_eq (i : OpenTitanI2cIntr) : interrupt_bit i = 2 ^ i.toNat := by
  cases i <;> rfl

theorem toNat_lt (i : OpenTitanI2cIntr) : i.toNat < 15 := by
  cases i <;> decide

theorem testBit_not32 (a j : Nat) :
    (not32 a).testBit j = (decide (j < 32) && !a.testBit j) := by
  have h : a % 2 ^ 32 < 2 ^ 32 := Nat.mod_lt _ (by norm_num)
  have e : not32 a = 2 ^ 32 - (a % 2 ^ 32 + 1) := by
    simp only [not32, U32_eq]; omega
  rw [e, Nat.testBit_two_pow_sub_succ h, Nat.testBit_mod_two_pow]
  by_cases hj : j < 32 <;> simp [hj]

theorem testBit_interrupt_bit (i : OpenTitanI2cIntr) (j : Nat) :
    (interrupt_bit i).testBit j = decide (i.toNat = j) := by
  rw [interrupt_bit_eq, Nat.testBit_two_pow]

theorem testBit_clear (x : Nat) (i : OpenTitanI2cIntr) (j : Nat) :
    (x &&& not32 (interrupt_bit i)).testBit j
      = (x.testBit j && decide (j < 32) && !decide (i.toNat = j)) := by
  rw [Nat.testBit_and, testBit_not32, testBit_interrupt_bit, Bool.and_assoc]

theorem testBit_enable (x : Nat) (i : OpenTitanI2cIntr) (j : Nat) :
    ((x ||| interrupt_bit i) % U32).testBit j
      = (decide (j < 32) && (x.testBit j || decide (i.toNat = j))) := by
  rw [U32_eq, Nat.testBit_mod_two_pow, Nat.testBit_or, testBit_interrupt_bit]

theorem testBit_lt_32 {x : Nat} (hx : x < U32) {j : Nat} (h : x.testBit j = true) : j < 32 := by
  by_contra hj
  have : x < 2 ^ j := lt_of_lt_of_le hx (by rw [U32_eq]; exact Nat.pow_le_pow_right (by norm_num) (by omega))
  rw [Nat.testBit_lt_two_pow this] at h
  exact Bool.noConfusion h

/-! ## Timing lemmas -/

theorem round_up_divide_exact {A B : Nat} (hA : 1 ≤ A) (hA16 : A < U16) (hB : 1 ≤ B)
    (hB32 : B < U32) : round_up_divide A B = some (ceilDiv A B) ∧ ceilDiv A B ≤ A ∧
      1 ≤ ceilDiv A B ∧ A ≤ ceilDiv A B * B := by
  dsimp only [U32, U16] at hA16 hB32
  have hBm : B % U32 = B := Nat.mod_eq_of_lt hB32
  have hs : sub32 A 1 = A - 1 := by unfold sub32; dsimp only [U32]; omega
  have hc : ceilDiv A B = (A - 1) / B + 1 := by
    unfold ceilDiv
    have : A + B - 1 = (A - 1) + B := by omega
    rw [this, Nat.add_div_right _ (by omega)]
  have hle : (A - 1) / B ≤ A - 1 := Nat.div_le_self _ _
  have hmul : A - 1 < B * ((A - 1) / B + 1) := Nat.lt_mul_div_succ _ (by omega)
  rw [hc]
  unfold round_up_divide
  rw [hBm, hs, if_neg (by omega)]
  generalize (A - 1) / B = q at *
  rw [Nat.mul_comm]
  generalize B * (q + 1) = p at *
  have : (q + 1) % U32 % U16 = q + 1 := by
    dsimp only [U32, U16]; omega
  rw [this]
  exact ⟨rfl, by omega, by omega, by omega⟩


theorem clamp_eq_max {a b : Nat} (hb : b < 65535) :
    (if a < (b + 1) % U32 then ((b + 1) % U32) % U16 else a) = max a (b + 1) := by
  dsimp only [U32, U16]
  rcases Nat.lt_or_ge a (b + 1) with h | h
  · rw [if_pos (by omega), max_eq_right (by omega)]; omega
  · rw [if_neg (by omega), max_eq_left (by omega)]

theorem computeTimings_exact {mode p : Nat} (hm : mode < 3) (hp : 1 ≤ p) (hp32 : p < U32) :
    computeTimings mode p = some (idealTimings mode p) := by
  have key : ∀ A, 1 ≤ A → A < 65535 → round_up_divide A p = some (ceilDiv A p) :=
    fun A h1 h2 => (round_up_divide_exact h1 (by dsimp only [U16]; omega) hp hp32).1
  have bnd : ∀ A, 1 ≤ A → A < 65535 → ceilDiv A p < 65535 :=
    fun A h1 h2 => lt_of_le_of_lt
      (round_up_divide_exact h1 (by dsimp only [U16]; omega) hp hp32).2.1 h2
  have hm' : mode = 0 ∨ mode = 1 ∨ mode = 2 := by omega
  rcases hm' with rfl | rfl | rfl
  all_goals
    simp only [computeTimings, idealTimings, specNs, SpcThigh, SpcTlow, SpcThdSta, SpcTsuSta,
      SpcThdDat, SpcTsuDat, SpcTBuf, SpcTsuSto, List.getD_cons_zero, List.getD_cons_succ,
      Nat.reduceMul, Nat.reduceDiv]
    simp only [key 4000 (by norm_num) (by norm_num), key 4700 (by norm_num) (by norm_num),
      key 12 (by norm_num) (by norm_num), key 120 (by norm_num) (by norm_num),
      key 5000 (by norm_num) (by norm_num), key 250 (by norm_num) (by norm_num),
      key 600 (by norm_num) (by norm_num), key 1300 (by norm_num) (by norm_num),
      key 1 (by norm_num) (by norm_num), key 100 (by norm_num) (by norm_num),
      key 260 (by norm_num) (by norm_num), key 150 (by norm_num) (by norm_num),
      key 50 (by norm_num) (by norm_num), key 500 (by norm_num) (by norm_num),
      Option.bind_eq_bind, Option.some_bind,
      clamp_eq_max (bnd 5000 (by norm_num) (by norm_num)),
      clamp_eq_max (bnd 4700 (by norm_num) (by norm_num)),
      clamp_eq_max (bnd 600 (by norm_num) (by norm_num)),
      clamp_eq_max (bnd 260 (by norm_num) (by norm_num)),
      clamp_eq_max (bnd 1 (by norm_num) (by norm_num))]

theorem clkPeriod_lt {hz p : Nat} (h : clkPeriod hz = some p) : p < U32 := by
  unfold clkPeriod at h
  split at h
  · exact Option.noConfusion h
  · have e := Option.some.inj h
    have : 1000 * 1000 / SysclkKhz hz ≤ 1000 * 1000 := Nat.div_le_self _ _
    dsimp only [U32]; omega

theorem busMode_lt (SpeedKhz : Nat) : busMode SpeedKhz < 3 := by
  unfold busMode; split <;> split <;> omega

theorem pack_unpack {a b : Nat} (ha : a < U16) (hb : b < U16) :
    ((a <<< 16 ||| b) % U32) / U16 = a ∧ ((a <<< 16 ||| b) % U32) % U16 = b := by
  dsimp only [U16, U32] at *
  have h : a <<< 16 ||| b = 65536 * a + b := by
    rw [Nat.shiftLeft_eq, Nat.mul_comm]
    exact (@Nat.mul_add_lt_is_or 16 b (by omega) a).symm
  rw [h]
  omega


theorem ceilDiv_facts {A p : Nat} (hA : 1 ≤ A) (hA16 : A < 65535) (hp : 1 ≤ p) (hp32 : p < U32) :
    ceilDiv A p ≤ A ∧ 1 ≤ ceilDiv A p ∧ A ≤ ceilDiv A p * p :=
  (round_up_divide_exact hA (by dsimp only [U16]; omega) hp hp32).2

theorem specNs_bounds {mode : Nat} (hm : mode < 3) :
    Timings.Forall₂ (fun v _ => 1 ≤ v ∧ v < 5001) (specNs mode) (specNs mode) := by
  have hm' : mode = 0 ∨ mode = 1 ∨ mode = 2 := by omega
  rcases hm' with rfl | rfl | rfl <;> (unfold Timings.Forall₂; decide)

theorem unpack_store {t : Timings} (r : OpenTitanI2c)
    (h : Timings.Forall₂ (fun v _ => v < U16) t t) : unpackTimings (storeTimings t r) = t := by
  obtain ⟨h1, h2, h3, h4, h5, h6, h7, h8, h9, h10⟩ := h
  cases t
  simp only [unpackTimings, storeTimings] at *
  simp only [(pack_unpack h2 h1).1, (pack_unpack h2 h1).2, (pack_unpack h3 h4).1,
    (pack_unpack h3 h4).2, (pack_unpack h5 h6).1, (pack_unpack h5 h6).2, (pack_unpack h7 h8).1,
    (pack_unpack h7 h8).2, (pack_unpack h9 h10).1, (pack_unpack h9 h10).2]

theorem idealTimings_facts {mode p : Nat} (hm : mode < 3) (hp : 1 ≤ p) (hp32 : p < U32) :
    Timings.Forall₂ (fun v ns => ceilDiv ns p ≤ v ∧ ns ≤ v * p ∧ v < 5002)
      (idealTimings mode p) (specNs mode) := by
  obtain ⟨b1, b2, b3, b4, b5, b6, b7, b8, b9, b10⟩ := specNs_bounds hm
  have f := fun (A : Nat) (h : 1 ≤ A ∧ A < 5001) =>
    @ceilDiv_facts A p h.1 (by omega) hp hp32
  have f1 := f _ b1
  have f2 := f _ b2
  have f3 := f _ b3
  have f4 := f _ b4
  have f5 := f _ b5
  have f6 := f _ b6
  have f7 := f _ b7
  have f8 := f _ b8
  have f9 := f _ b9
  have f10 := f _ b10
  have hF : (specNs mode).tFall = 12 := rfl
  have hR : (specNs mode).tRise = 120 := rfl
  have mono : ∀ {a b c : Nat}, c ≤ a * p → a ≤ b → c ≤ b * p :=
    fun h1 h2 => le_trans h1 (Nat.mul_le_mul_right _ h2)
  simp only [Timings.Forall₂, idealTimings]
  rw [hF] at f3 b3
  rw [hR] at f4 b4
  refine ⟨⟨le_rfl, f1.2.2, by omega⟩, ⟨le_max_left _ _, mono f2.2.2 (le_max_left _ _), ?_⟩,
    ⟨by rw [hF], by rw [hF]; exact f3.2.2, by omega⟩,
    ⟨by rw [hR], by rw [hR]; exact f4.2.2, by omega⟩,
    ⟨le_rfl, f5.2.2, by omega⟩, ⟨le_rfl, f6.2.2, by omega⟩, ⟨le_rfl, f7.2.2, by omega⟩,
    ⟨le_rfl, f8.2.2, by omega⟩, ⟨le_max_left _ _, mono f9.2.2 (le_max_left _ _), ?_⟩,
    ⟨le_rfl, f10.2.2, by omega⟩⟩
  · exact max_lt (by omega) (by omega)
  · exact max_lt (by omega) (by omega)


theorem set_speed_eq {hz p : Nat} (SpeedKhz : Nat) (r : OpenTitanI2c)
    (hp : clkPeriod hz = some p) (hp1 : 1 ≤ p) :
    set_speed hz SpeedKhz r = some (storeTimings (idealTimings (busMode SpeedKhz) p) r) ∧
    unpackTimings (storeTimings (idealTimings (busMode SpeedKhz) p) r)
      = idealTimings (busMode SpeedKhz) p := by
  have hp32 := clkPeriod_lt hp
  have hm := busMode_lt SpeedKhz
  constructor
  · simp only [set_speed, hp, computeTimings_exact hm hp1 hp32, Option.bind_eq_bind,
      Option.some_bind]
  · apply unpack_store
    obtain ⟨h1, h2, h3, h4, h5, h6, h7, h8, h9, h10⟩ := idealTimings_facts hm hp1 hp32
    refine ⟨?_, ?_, ?_, ?_, ?_, ?_, ?_, ?_, ?_, ?_⟩ <;> dsimp only [U16] <;> omega

theorem Step.refl (m : Mmio) : Step m m [] 0 0 :=
  ⟨by simp, rfl, rfl, le_rfl, rfl, fun _ => rfl, fun _ => rfl, fun _ => rfl⟩

theorem Step.trans {m m' m'' : Mmio} {p p' : List Nat} {i i' x x' : Nat}
    (h : Step m m' p i x) (h' : Step m' m'' p' i' x') : Step m m'' (p ++ p') (i + i') (x + x') := by
  refine ⟨?_, ?_, ?_, ?_, ?_, ?_, ?_, ?_⟩
  · rw [h'.fmtFifo, h.fmtFifo, List.append_assoc]
  · rw [h'.intrLoads, h.intrLoads, Nat.add_assoc]
  · rw [h'.rDataLoads, h.rDataLoads, Nat.add_assoc]
  · exact le_trans h.statusLoads h'.statusLoads
  · rw [h'.regs, h.regs]
  · intro hz
    rw [h'.intrKeep (by omega), h.intrKeep (by omega)]
  · intro hz
    rw [h'.rDataKeep (by omega), h.rDataKeep (by omega)]
  · intro hz
    rw [h'.fDataKeep (List.append_eq_nil.mp hz).2, h.fDataKeep (List.append_eq_nil.mp hz).1]

theorem step_loadStatus (bus : Bus) (m : Mmio) : Step m (loadStatus bus m) [] 0 0 :=
  ⟨by simp [loadStatus], rfl, rfl, Nat.le_succ _, rfl, fun _ => rfl, fun _ => rfl,
    fun _ => rfl⟩

theorem step_loadIntrState (bus : Bus) (m : Mmio) : Step m (loadIntrState bus m) [] 1 0 :=
  ⟨by simp [loadIntrState], rfl, rfl, le_rfl, rfl, fun h => absurd h (by decide),
    fun _ => rfl, fun _ => rfl⟩

theorem step_loadRData (bus : Bus) (m : Mmio) : Step m (loadRData bus m) [] 0 1 :=
  ⟨by simp [loadRData], rfl, rfl, le_rfl, rfl, fun _ => rfl, fun h => absurd h (by decide),
    fun _ => rfl⟩

theorem step_storeFData (w : Nat) (m : Mmio) : Step m (storeFData w m) [w % U32] 0 0 :=
  ⟨rfl, rfl, rfl, le_rfl, rfl, fun _ => rfl, fun _ => rfl, fun h => absurd h (by simp)⟩


/-! ## The two polling loops -/

theorem blocking_write_step (bus : Bus) (w : Nat) :
    ∀ (fuel : Nat) (m m' : Mmio), blocking_write bus fuel w m = some m' →
      Step m m' [w % U32] 0 0 := by
  intro fuel
  induction fuel with
  | zero => intro m m' h; exact Option.noConfusion h
  | succ fuel ih =>
    intro m m' h
    rw [blocking_write] at h
    split at h
    · have := (step_loadStatus bus m).trans (ih _ _ h)
      simpa using this
    · cases Option.some.inj h
      have := (step_loadStatus bus m).trans (step_storeFData w (loadStatus bus m))
      simpa using this

theorem wait_fmt_empty_step (bus : Bus) :
    ∀ (fuel : Nat) (m m' : Mmio), wait_fmt_empty bus fuel m = some m' → Step m m' [] 0 0 := by
  intro fuel
  induction fuel with
  | zero => intro m m' h; exact Option.noConfusion h
  | succ fuel ih =>
    intro m m' h
    rw [wait_fmt_empty] at h
    split at h
    · have := (step_loadStatus bus m).trans (ih _ _ h)
      simpa using this
    · cases Option.some.inj h
      exact step_loadStatus bus m

theorem blocking_write_mono (bus : Bus) (w : Nat) :
    ∀ (fuel fuel' : Nat) (m m' : Mmio), fuel ≤ fuel' → blocking_write bus fuel w m = some m' →
      blocking_write bus fuel' w m = some m' := by
  intro fuel
  induction fuel with
  | zero => intro _ m m' _ h; exact Option.noConfusion h
  | succ fuel ih =>
    intro fuel' m m' hle h
    obtain ⟨g, rfl⟩ : ∃ g, fuel' = g + 1 := ⟨fuel' - 1, by omega⟩
    rw [blocking_write] at h ⊢
    split
    · rename_i hc
      rw [if_pos hc] at h
      exact ih _ _ _ (by omega) h
    · rename_i hc
      rw [if_neg hc] at h
      exact h

theorem wait_fmt_empty_mono (bus : Bus) :
    ∀ (fuel fuel' : Nat) (m m' : Mmio), fuel ≤ fuel' → wait_fmt_empty bus fuel m = some m' →
      wait_fmt_empty bus fuel' m = some m' := by
  intro fuel
  induction fuel with
  | zero => intro _ m m' _ h; exact Option.noConfusion h
  | succ fuel ih =>
    intro fuel' m m' hle h
    obtain ⟨g, rfl⟩ : ∃ g, fuel' = g + 1 := ⟨fuel' - 1, by omega⟩
    rw [wait_fmt_empty] at h ⊢
    split
    · rename_i hc
      rw [if_pos hc] at h
      exact ih _ _ _ (by omega) h
    · rename_i hc
      rw [if_neg hc] at h
      exact h

theorem blocking_write_returns {bus : Bus} (hb : bus.EventuallyNotFull) (w : Nat) (m : Mmio) :
    ∃ F m', ∀ fuel, F ≤ fuel → blocking_write bus fuel w m = some m' := by
  obtain ⟨k, hk⟩ := hb m.statusLoads
  induction k generalizing m with
  | zero =>
    refine ⟨1, storeFData w (loadStatus bus m), fun fuel hf => ?_⟩
    apply blocking_write_mono bus w 1 fuel _ _ hf
    rw [blocking_write]
    rw [if_neg]
    exact fun hne => hne hk.symm
  | succ k ih =>
    by_cases hc : 0 ≠ (StatusFmtFull &&& (loadStatus bus m).regs.status)
    · obtain ⟨F, m', h⟩ := ih (loadStatus bus m) (by
        have : (loadStatus bus m).statusLoads + k = m.statusLoads + (k + 1) := by
          simp [loadStatus]; omega
        rw [this]; exact hk)
      refine ⟨F + 1, m', fun fuel hf => ?_⟩
      obtain ⟨g, rfl⟩ : ∃ g, fuel = g + 1 := ⟨fuel - 1, by omega⟩
      rw [blocking_write]
      rw [if_pos hc]
      exact h g (by omega)
    · refine ⟨1, storeFData w (loadStatus bus m), fun fuel hf => ?_⟩
      apply blocking_write_mono bus w 1 fuel _ _ hf
      rw [blocking_write]
      rw [if_neg hc]

theorem wait_fmt_empty_returns {bus : Bus} (hb : bus.EventuallyEmpty) (m : Mmio) :
    ∃ F m', ∀ fuel, F ≤ fuel → wait_fmt_empty bus fuel m = some m' := by
  obtain ⟨k, hk⟩ := hb m.statusLoads
  induction k generalizing m with
  | zero =>
    refine ⟨1, loadStatus bus m, fun fuel hf => ?_⟩
    apply wait_fmt_empty_mono bus 1 fuel _ _ hf
    rw [wait_fmt_empty]
    rw [if_neg]
    have hk' : 0 ≠ (StatusFmtEmpty &&& (loadStatus bus m).regs.status) := fun h => hk h.symm
    simp [fmt_empty, hk']
  | succ k ih =>
    by_cases hc : (!fmt_empty (loadStatus bus m).regs) = true
    · obtain ⟨F, m', h⟩ := ih (loadStatus bus m) (by
        have : (loadStatus bus m).statusLoads + k = m.statusLoads + (k + 1) := by
          simp [loadStatus]; omega
        rw [this]; exact hk)
      refine ⟨F + 1, m', fun fuel hf => ?_⟩
      obtain ⟨g, rfl⟩ : ∃ g, fuel = g + 1 := ⟨fuel - 1, by omega⟩
      rw [wait_fmt_empty]
      rw [if_pos hc]
      exact h g (by omega)
    · refine ⟨1, loadStatus bus m, fun fuel hf => ?_⟩
      apply wait_fmt_empty_mono bus 1 fuel _ _ hf
      rw [wait_fmt_empty]
      rw [if_neg hc]


/-! ## `write` -/

theorem write_loop_returns {bus : Bus} (hb : bus.EventuallyNotFull) (data : Buffer) {N : Nat}
    (hN1 : 1 ≤ N) (hN : N < U32) :
    ∀ (d i : Nat) (m : Mmio), i + d + 1 = N →
      ∃ F m', (∀ spin fuel, F ≤ spin → F ≤ fuel → write_loop bus spin data N fuel i m = some m') ∧
        Step m m' ((List.range' i d).map (fun j => data j % U8)) 0 0 := by
  have hsub : sub32 N 1 = N - 1 := by
    unfold sub32; dsimp only [U32] at hN ⊢; omega
  intro d
  induction d with
  | zero =>
    intro i m hi
    refine ⟨1, m, fun spin fuel _ hf => ?_, by simpa using Step.refl m⟩
    obtain ⟨g, rfl⟩ : ∃ g, fuel = g + 1 := ⟨fuel - 1, by omega⟩
    rw [write_loop, hsub, if_neg (show ¬ i < N - 1 by omega)]
  | succ d ih =>
    intro i m hi
    obtain ⟨F1, m1, h1⟩ := blocking_write_returns hb (data i % U8) m
    have s1 := blocking_write_step bus _ _ _ _ (h1 F1 le_rfl)
    obtain ⟨F2, m2, h2, s2⟩ := ih (i + 1) m1 (by omega)
    refine ⟨max F1 F2 + 1, m2, fun spin fuel hs hf => ?_, ?_⟩
    · obtain ⟨g, rfl⟩ : ∃ g, fuel = g + 1 := ⟨fuel - 1, by omega⟩
      have hi1 : (i + 1) % U32 = i + 1 := by dsimp only [U32] at hN ⊢; omega
      rw [write_loop, hsub, if_pos (show i < N - 1 by omega), h1 spin (by omega)]
      simp only [Option.bind_eq_bind, Option.some_bind, hi1]
      exact h2 spin g (by omega) (by omega)
    · have := s1.trans s2
      have e : data i % U8 % U32 = data i % U8 := by dsimp only [U8, U32]; omega
      rw [e] at this
      simpa [List.range'_succ] using this

theorem write_returns {bus : Bus} (hb : bus.EventuallyNotFull) (Addr7 : Nat) (data : Buffer) {N : Nat}
    (hA : Addr7 < 128) (hN1 : 1 ≤ N) (hN : N < U32) (SkipStop : Bool) (m : Mmio) :
    ∃ F m', (∀ fuel, F ≤ fuel → write bus fuel Addr7 data N SkipStop m = some m') ∧
      Step m m' (specWritePushes Addr7 data N SkipStop) 0 0 := by
  have hNm : N % U32 = N := Nat.mod_eq_of_lt hN
  have hsub : sub32 N 1 = N - 1 := by
    unfold sub32; dsimp only [U32] at hN ⊢; omega
  have hAm : Addr7 % U8 = Addr7 := by dsimp only [U8]; omega
  obtain ⟨F1, m1, h1⟩ := blocking_write_returns hb (FDataStart ||| (Addr7 <<< 1) ||| 0) m
  have s1 := blocking_write_step bus _ _ _ _ (h1 F1 le_rfl)
  obtain ⟨F2, m2, h2, s2⟩ := write_loop_returns hb data hN1 hN (N - 1) 0 m1 (by omega)
  obtain ⟨F3, m3, h3⟩ := blocking_write_returns hb
    ((if SkipStop then 0 else FDataStop) ||| (data (N - 1) % U8)) m2
  have s3 := blocking_write_step bus _ _ _ _ (h3 F3 le_rfl)
  refine ⟨max F1 (max F2 F3), m3, fun fuel hf => ?_, ?_⟩
  · unfold write
    rw [hNm, if_neg (by omega), hAm, h1 fuel (by omega)]
    simp only [Option.bind_eq_bind, Option.some_bind]
    rw [h2 fuel fuel (by omega) (by omega)]
    simp only [Option.some_bind, hsub]
    exact h3 fuel (by omega)
  · have hs := (s1.trans s2).trans s3
    have e1 : (FDataStart ||| Addr7 <<< 1 ||| 0) % U32 = FDataStart ||| Addr7 <<< 1 ||| 0 := by
      apply Nat.mod_eq_of_lt
      rw [show U32 = 2 ^ 32 from by norm_num [U32]]
      refine Nat.or_lt_two_pow (Nat.or_lt_two_pow (by decide) ?_) (by decide)
      rw [Nat.shiftLeft_eq]; omega
    have hd : data (N - 1) % U8 < 2 ^ 32 := by dsimp only [U8]; omega
    have e3 : ((if SkipStop = true then 0 else FDataStop) ||| data (N - 1) % U8) % U32
        = if SkipStop then data (N - 1) % U8 else (data (N - 1) % U8) ||| FDataStop := by
      cases SkipStop
      · simp only [Bool.false_eq_true, if_false]
        rw [Nat.lor_comm]
        apply Nat.mod_eq_of_lt
        rw [show U32 = 2 ^ 32 from by norm_num [U32]]
        exact Nat.or_lt_two_pow hd (by decide)
      · simp only [if_true, Nat.zero_or]
        exact Nat.mod_eq_of_lt (by rw [show U32 = 2 ^ 32 from by norm_num [U32]]; exact hd)
    rw [e1, e3, ← List.range_eq_range'] at hs
    exact hs


/-! ## `read` -/

theorem read_drain_returns (bus : Bus) {idx cs : Nat} (h : idx + cs < U32) :
    ∀ (d ci : Nat) (buf : Buffer) (m : Mmio), ci + d = cs →
      ∃ buf' m', (∀ fuel, d + 1 ≤ fuel → read_drain bus idx cs fuel ci buf m = some (buf', m')) ∧
        Step m m' [] 0 d ∧
        ∀ j, buf' j = if idx + ci ≤ j ∧ j < idx + cs
          then bus.rData (m.rDataLoads + (j - (idx + ci))) % U8 else buf j := by
  intro d
  induction d with
  | zero =>
    intro ci buf m hci
    refine ⟨buf, m, fun fuel hf => ?_, Step.refl m, fun j => ?_⟩
    · obtain ⟨g, rfl⟩ : ∃ g, fuel = g + 1 := ⟨fuel - 1, by omega⟩
      rw [read_drain, if_neg (show ¬ ci < cs by omega)]
    · rw [if_neg (by omega)]
  | succ d ih =>
    intro ci buf m hci
    obtain ⟨buf', m', h1, s1, b1⟩ := ih (ci + 1)
      (buf.set ((idx + ci) % U32) (loadRData bus m).regs.rData) (loadRData bus m) (by omega)
    have e1 : (ci + 1) % U32 = ci + 1 := by dsimp only [U32] at h ⊢; omega
    have e2 : (idx + ci) % U32 = idx + ci := by dsimp only [U32] at h ⊢; omega
    refine ⟨buf', m', fun fuel hf => ?_, ?_, fun j => ?_⟩
    · obtain ⟨g, rfl⟩ : ∃ g, fuel = g + 1 := ⟨fuel - 1, by omega⟩
      rw [read_drain, if_pos (show ci < cs by omega), e1]
      exact h1 g (by omega)
    · have := (step_loadRData bus m).trans s1
      have e : 1 + d = d + 1 := by omega
      simpa [e] using this
    · rw [b1 j, e2]
      by_cases hj : j = idx + ci
      · subst hj
        rw [if_neg (by omega), if_pos (by omega)]
        simp only [Buffer.set, if_true, loadRData, Nat.sub_self, Nat.add_zero]
        dsimp only [U8, U32]; omega
      · by_cases hj2 : idx + ci + 1 ≤ j ∧ j < idx + cs
        · rw [if_pos (by omega), if_pos (by omega)]
          have : (loadRData bus m).rDataLoads + (j - (idx + (ci + 1)))
              = m.rDataLoads + (j - (idx + ci)) := by
            simp only [loadRData]; omega
          rw [this]
        · rw [if_neg (by omega), if_neg (by omega)]
          simp only [Buffer.set, if_neg hj]


theorem addr_word_mod {Addr7 : Nat} (hA : Addr7 < 128) (rw : Nat) (hrw : rw < 2) :
    (FDataStart ||| Addr7 <<< 1 ||| rw) % U32 = FDataStart ||| Addr7 <<< 1 ||| rw := by
  apply Nat.mod_eq_of_lt
  rw [show U32 = 2 ^ 32 from by norm_num [U32]]
  refine Nat.or_lt_two_pow (Nat.or_lt_two_pow (by decide) ?_) (by omega)
  rw [Nat.shiftLeft_eq]; omega

theorem read_word_eq {N j : Nat} (hj : 255 * j < N) :
    ((if decide (UINT8_MAX ≥ N - 255 * j) then FDataStop else 0) ||| FDataReadB |||
      (if decide (UINT8_MAX ≥ N - 255 * j) then (N - 255 * j) % U8 else UINT8_MAX)) % U32
    = (if j + 1 < readChunks N then FDataReadB ||| 255
       else FDataStop ||| FDataReadB ||| (N - 255 * (readChunks N - 1))) := by
  dsimp only [UINT8_MAX, U8, readChunks, U32]
  by_cases hc : 255 ≥ N - 255 * j
  · have hC : (N + 254) / 255 = j + 1 := by omega
    have e : (N - 255 * j) % 256 = N - 255 * j := by omega
    rw [hC, if_neg (show ¬ (j + 1 < j + 1) by omega)]
    simp only [hc, decide_True, if_true, e, Nat.add_sub_cancel]
    apply Nat.mod_eq_of_lt
    rw [show (4294967296 : Nat) = 2 ^ 32 from by norm_num]
    refine Nat.or_lt_two_pow (Nat.or_lt_two_pow (by decide) (by decide)) ?_
    omega
  · have hC : j + 1 < (N + 254) / 255 := by omega
    rw [if_pos hC]
    simp only [hc, decide_False, Bool.false_eq_true, if_false]
    decide

theorem nak_clear_iff (bus : Bus) (m : Mmio) :
    interrupt_asserted (loadIntrState bus m).regs OpenTitanI2cIntr.Nak = true
      ↔ bus.nakAt m.intrLoads := by
  unfold interrupt_asserted Bus.nakAt
  simp only [loadIntrState, decide_eq_true_eq]
  exact ⟨fun h e => h e.symm, fun h e => h e.symm⟩

theorem read_chunk_ok {bus : Bus} (hb : bus.Responsive) {Addr7 N j : Nat} (hA : Addr7 < 128)
    (hN : N < U32) (hj : 255 * j < N) (buf : Buffer) (m : Mmio)
    (hnak : ¬ bus.nakAt m.intrLoads) :
    ∃ F buf' m',
      (∀ spin fuel, F ≤ spin → read_loop bus spin Addr7 N (fuel + 1) (255 * j) buf m
          = read_loop bus spin Addr7 N fuel (255 * (j + 1)) buf' m') ∧
      Step m m' (specChunkPushes Addr7 N j) 1 (min 255 (N - 255 * j)) ∧
      (∀ i, buf' i = if 255 * j ≤ i ∧ i < 255 * j + min 255 (N - 255 * j)
        then bus.rData (m.rDataLoads + (i - 255 * j)) % U8 else buf i) := by
  have hAm : Addr7 % U8 = Addr7 := by dsimp only [U8]; omega
  obtain ⟨F1, m1, h1⟩ := blocking_write_returns hb.1 (FDataStart ||| (Addr7 <<< 1) ||| 1) m
  have s1 := blocking_write_step bus _ _ _ _ (h1 F1 le_rfl)
  obtain ⟨F2, m2, h2⟩ := wait_fmt_empty_returns hb.2 m1
  have s2 := wait_fmt_empty_step bus _ _ _ (h2 F2 le_rfl)
  have s3 := step_loadIntrState bus m2
  have hi2 : m2.intrLoads = m.intrLoads := by
    have := s2.intrLoads
    have := s1.intrLoads
    omega
  have hclear : interrupt_asserted (loadIntrState bus m2).regs OpenTitanI2cIntr.Nak = false := by
    rw [Bool.eq_false_iff]
    intro h
    rw [nak_clear_iff, hi2] at h
    exact hnak h
  have hrem : sub32 N (255 * j) = N - 255 * j := by
    unfold sub32; dsimp only [U32] at hN ⊢; omega
  obtain ⟨F4, m4, h4⟩ := blocking_write_returns hb.1
    ((if decide (UINT8_MAX ≥ N - 255 * j) then FDataStop else 0) ||| FDataReadB |||
      (if decide (UINT8_MAX ≥ N - 255 * j) then (N - 255 * j) % U8 else UINT8_MAX))
    (loadIntrState bus m2)
  have s4 := blocking_write_step bus _ _ _ _ (h4 F4 le_rfl)
  obtain ⟨F5, m5, h5⟩ := wait_fmt_empty_returns hb.2 m4
  have s5 := wait_fmt_empty_step bus _ _ _ (h5 F5 le_rfl)
  have hcs : (if decide (UINT8_MAX ≥ N - 255 * j) then (N - 255 * j) % U8 else UINT8_MAX)
      = min 255 (N - 255 * j) := by
    dsimp only [UINT8_MAX, U8]
    split_ifs with hc
    · have := of_decide_eq_true hc
      omega
    · have : ¬ (255 ≥ N - 255 * j) := fun h => hc (decide_eq_true h)
      omega
  obtain ⟨buf', m6, h6, s6, b6⟩ := @read_drain_returns bus (255 * j)
    (min 255 (N - 255 * j)) (by dsimp only [U32] at hN ⊢; omega)
    (min 255 (N - 255 * j)) 0 buf m5 (by omega)
  refine ⟨max (max F1 F2) (max (max F4 F5) 256), buf', m6, fun spin fuel hs => ?_, ?_, ?_⟩
  · have hnext : (255 * j + UINT8_MAX) % U32 = 255 * (j + 1) := by
      dsimp only [UINT8_MAX, U32] at hN ⊢; omega
    rw [read_loop, if_pos hj, hAm, h1 spin (by omega)]
    simp only [Option.bind_eq_bind, Option.some_bind]
    rw [h2 spin (by omega)]
    simp only [Option.some_bind, hclear, Bool.false_eq_true, if_false, hrem]
    rw [h4 spin (by omega)]
    simp only [Option.some_bind]
    rw [h5 spin (by omega)]
    simp only [Option.some_bind, hcs]
    rw [h6 spin (by omega)]
    simp only [Option.some_bind, hnext]
  · have hs := ((((s1.trans s2).trans s3).trans s4).trans s5).trans s6
    rw [addr_word_mod hA 1 (by decide), read_word_eq hj] at hs
    simpa [specChunkPushes] using hs
  · intro i
    rw [b6 i]
    simp only [Nat.add_zero]
    have e5 : m5.rDataLoads = m.rDataLoads := by
      have := s5.rDataLoads
      have := s4.rDataLoads
      have := s3.rDataLoads
      have := s2.rDataLoads
      have := s1.rDataLoads
      omega
    rw [e5]


theorem step_clearIntr (bus : Bus) (m : Mmio) (i : OpenTitanI2cIntr) :
    Step m (clear_interrupt_live bus i m) [] 1 0 :=
  ⟨by simp [clear_interrupt_live, loadIntrState], rfl, rfl, le_rfl, rfl,
    fun h => absurd h (by decide), fun _ => rfl, fun _ => rfl⟩

theorem read_chunk_nak {bus : Bus} (hb : bus.Responsive) {Addr7 N j : Nat} (hA : Addr7 < 128)
    (hj : 255 * j < N) (buf : Buffer) (m : Mmio) (hnak : bus.nakAt m.intrLoads) :
    ∃ F mNak,
      (∀ spin fuel, F ≤ spin → read_loop bus spin Addr7 N (fuel + 1) (255 * j) buf m
          = some (false, buf, clear_interrupt_live bus OpenTitanI2cIntr.Nak mNak)) ∧
      Step m mNak [FDataStart ||| (Addr7 <<< 1) ||| 1] 1 0 ∧
      interrupt_asserted mNak.regs OpenTitanI2cIntr.Nak = true := by
  have hAm : Addr7 % U8 = Addr7 := by dsimp only [U8]; omega
  obtain ⟨F1, m1, h1⟩ := blocking_write_returns hb.1 (FDataStart ||| (Addr7 <<< 1) ||| 1) m
  have s1 := blocking_write_step bus _ _ _ _ (h1 F1 le_rfl)
  obtain ⟨F2, m2, h2⟩ := wait_fmt_empty_returns hb.2 m1
  have s2 := wait_fmt_empty_step bus _ _ _ (h2 F2 le_rfl)
  have s3 := step_loadIntrState bus m2
  have hi2 : m2.intrLoads = m.intrLoads := by
    have := s2.intrLoads
    have := s1.intrLoads
    omega
  have hset : interrupt_asserted (loadIntrState bus m2).regs OpenTitanI2cIntr.Nak = true := by
    rw [nak_clear_iff, hi2]; exact hnak
  refine ⟨max F1 F2, loadIntrState bus m2, fun spin fuel hs => ?_, ?_, hset⟩
  · rw [read_loop, if_pos hj, hAm, h1 spin (by omega)]
    simp only [Option.bind_eq_bind, Option.some_bind]
    rw [h2 spin (by omega)]
    simp only [Option.some_bind, hset, if_true]
  · have hs := (s1.trans s2).trans s3
    rw [addr_word_mod hA 1 (by decide)] at hs
    simpa using hs

theorem specReadPushesFrom_snoc (Addr7 N : Nat) :
    ∀ (k c : Nat), specReadPushesFrom Addr7 N c (k + 1)
      = specReadPushesFrom Addr7 N c k ++ specChunkPushes Addr7 N (c + k) := by
  intro k
  induction k with
  | zero => intro c; simp [specReadPushesFrom]
  | succ k ih =>
    intro c
    rw [specReadPushesFrom, ih (c + 1), specReadPushesFrom, List.append_assoc]
    have : c + 1 + k = c + (k + 1) := by omega
    rw [this]

theorem read_loop_ok {bus : Bus} (hb : bus.Responsive) {Addr7 N : Nat} (hA : Addr7 < 128)
    (hN : N < U32) :
    ∀ (d j : Nat) (buf : Buffer) (m : Mmio), j + d = readChunks N →
      (∀ i, i < d → ¬ bus.nakAt (m.intrLoads + i)) →
      ∃ F buf' m',
        (∀ spin fuel, F ≤ spin → F ≤ fuel →
          read_loop bus spin Addr7 N fuel (255 * j) buf m = some (true, buf', m')) ∧
        Step m m' (specReadPushesFrom Addr7 N j d) d (N - 255 * j) ∧
        (∀ i, buf' i = if 255 * j ≤ i ∧ i < N
          then bus.rData (m.rDataLoads + (i - 255 * j)) % U8 else buf i) := by
  intro d
  induction d with
  | zero =>
    intro j buf m hj _
    have hge : ¬ 255 * j < N := by unfold readChunks at hj; omega
    refine ⟨1, buf, m, fun spin fuel _ hf => ?_, ?_, fun i => ?_⟩
    · obtain ⟨g, rfl⟩ : ∃ g, fuel = g + 1 := ⟨fuel - 1, by omega⟩
      rw [read_loop, if_neg hge]
    · have e : N - 255 * j = 0 := by omega
      rw [e]; exact Step.refl m
    · rw [if_neg (by omega)]
  | succ d ih =>
    intro j buf m hj hnak
    have hlt : 255 * j < N := by unfold readChunks at hj; omega
    obtain ⟨F1, buf1, m1, h1, s1, b1⟩ :=
      read_chunk_ok hb hA hN hlt buf m (by simpa using hnak 0 (by omega))
    obtain ⟨F2, buf2, m2, h2, s2, b2⟩ := ih (j + 1) buf1 m1 (by omega) (by
      intro i hi
      have := hnak (i + 1) (by omega)
      rw [s1.intrLoads]
      have e : m.intrLoads + 1 + i = m.intrLoads + (i + 1) := by omega
      rw [e]; exact this)
    refine ⟨max F1 F2 + 1, buf2, m2, fun spin fuel hs hf => ?_, ?_, fun i => ?_⟩
    · obtain ⟨g, rfl⟩ : ∃ g, fuel = g + 1 := ⟨fuel - 1, by omega⟩
      rw [h1 spin g (by omega)]
      exact h2 spin g (by omega) (by omega)
    · have hs := s1.trans s2
      have e1 : 1 + d = d + 1 := by omega
      have e2 : min 255 (N - 255 * j) + (N - 255 * (j + 1)) = N - 255 * j := by omega
      rw [e1, e2] at hs
      exact hs
    · rw [b2 i, b1 i, s1.rDataLoads]
      unfold readChunks at hj
      by_cases c1 : 255 * (j + 1) ≤ i ∧ i < N
      · rw [if_pos c1, if_pos (by omega)]
        have : m.rDataLoads + min 255 (N - 255 * j) + (i - 255 * (j + 1))
            = m.rDataLoads + (i - 255 * j) := by omega
        rw [this]
      · rw [if_neg c1]
        by_cases c2 : 255 * j ≤ i ∧ i < N
        · rw [if_pos c2, if_pos (by omega)]
        · rw [if_neg c2, if_neg (by omega)]


theorem read_loop_nak {bus : Bus} (hb : bus.Responsive) {Addr7 N : Nat} (hA : Addr7 < 128)
    (hN : N < U32) :
    ∀ (k j : Nat) (buf : Buffer) (m : Mmio), 255 * (j + k) < N →
      (∀ i, i < k → ¬ bus.nakAt (m.intrLoads + i)) → bus.nakAt (m.intrLoads + k) →
      ∃ F buf' mNak,
        (∀ spin fuel, F ≤ spin → F ≤ fuel →
          read_loop bus spin Addr7 N fuel (255 * j) buf m
            = some (false, buf', clear_interrupt_live bus OpenTitanI2cIntr.Nak mNak)) ∧
        Step m mNak (specReadPushesFrom Addr7 N j k ++ [FDataStart ||| (Addr7 <<< 1) ||| 1])
          (k + 1) (255 * k) ∧
        interrupt_asserted mNak.regs OpenTitanI2cIntr.Nak = true ∧
        (∀ i, buf' i = if 255 * j ≤ i ∧ i < 255 * (j + k)
          then bus.rData (m.rDataLoads + (i - 255 * j)) % U8 else buf i) := by
  intro k
  induction k with
  | zero =>
    intro j buf m hj _ hnak
    have hj0 : 255 * j < N := by omega
    obtain ⟨F, mNak, h, s, ha⟩ := read_chunk_nak hb hA hj0 buf m hnak
    refine ⟨F + 1, buf, mNak, fun spin fuel hs hf => ?_, ?_, ha, fun i => ?_⟩
    · obtain ⟨g, rfl⟩ : ∃ g, fuel = g + 1 := ⟨fuel - 1, by omega⟩
      exact h spin g (by omega)
    · simpa [specReadPushesFrom] using s
    · rw [if_neg (by omega)]
  | succ k ih =>
    intro j buf m hj hclear hnak
    have hj0 : 255 * j < N := by omega
    obtain ⟨F1, buf1, m1, h1, s1, b1⟩ :=
      read_chunk_ok hb hA hN hj0 buf m (by simpa using hclear 0 (by omega))
    have hmin : min 255 (N - 255 * j) = 255 := by omega
    rw [hmin] at s1 b1
    obtain ⟨F2, buf2, mNak, h2, s2, ha, b2⟩ := ih (j + 1) buf1 m1 (by
        have : j + 1 + k = j + (k + 1) := by omega
        rw [this]; exact hj) (by
        intro i hi
        have := hclear (i + 1) (by omega)
        rw [s1.intrLoads]
        have e : m.intrLoads + 1 + i = m.intrLoads + (i + 1) := by omega
        rw [e]; exact this) (by
        rw [s1.intrLoads]
        have e : m.intrLoads + 1 + k = m.intrLoads + (k + 1) := by omega
        rw [e]; exact hnak)
    refine ⟨max F1 F2 + 1, buf2, mNak, fun spin fuel hs hf => ?_, ?_, ha, fun i => ?_⟩
    · obtain ⟨g, rfl⟩ : ∃ g, fuel = g + 1 := ⟨fuel - 1, by omega⟩
      rw [h1 spin g (by omega)]
      exact h2 spin g (by omega) (by omega)
    · have hs := s1.trans s2
      have e1 : 1 + (k + 1) = k + 1 + 1 := by omega
      have e2 : 255 + 255 * k = 255 * (k + 1) := by omega
      rw [e1, e2, ← List.append_assoc] at hs
      exact hs
    · rw [b2 i, b1 i, s1.rDataLoads]
      by_cases c1 : 255 * (j + 1) ≤ i ∧ i < 255 * (j + 1 + k)
      · rw [if_pos c1, if_pos (by omega)]
        have : m.rDataLoads + 255 + (i - 255 * (j + 1)) = m.rDataLoads + (i - 255 * j) := by omega
        rw [this]
      · rw [if_neg c1]
        by_cases c2 : 255 * j ≤ i ∧ i < 255 * j + 255
        · rw [if_pos c2, if_pos (by omega)]
        · rw [if_neg c2, if_neg (by omega)]


theorem read_drain_step (bus : Bus) (idx cs : Nat) :
    ∀ (fuel ci : Nat) (buf buf' : Buffer) (m m' : Mmio),
      read_drain bus idx cs fuel ci buf m = some (buf', m') → ∃ x, Step m m' [] 0 x := by
  intro fuel
  induction fuel with
  | zero => intro ci buf buf' m m' h; exact Option.noConfusion h
  | succ fuel ih =>
    intro ci buf buf' m m' h
    rw [read_drain] at h
    split at h
    · obtain ⟨x, hx⟩ := ih _ _ _ _ _ h
      exact ⟨1 + x, by simpa using (step_loadRData bus m).trans hx⟩
    · cases Option.some.inj h
      exact ⟨0, Step.refl m⟩

theorem read_loop_true_only_without_nak (bus : Bus) (spin Addr7 N : Nat) :
    ∀ (fuel idx : Nat) (buf buf' : Buffer) (m m' : Mmio),
      read_loop bus spin Addr7 N fuel idx buf m = some (true, buf', m') →
      m.intrLoads ≤ m'.intrLoads ∧
      ∀ i, m.intrLoads ≤ i → i < m'.intrLoads → ¬ bus.nakAt i := by
  intro fuel
  induction fuel with
  | zero => intro idx buf buf' m m' h; exact Option.noConfusion h
  | succ fuel ih =>
    intro idx buf buf' m m' h
    rw [read_loop] at h
    by_cases hidx : idx < N
    · rw [if_pos hidx] at h
      simp only [Option.bind_eq_bind, Option.bind_eq_some] at h
      obtain ⟨m1, h1, m2, h2, h⟩ := h
      have s1 := blocking_write_step bus _ _ _ _ h1
      have s2 := wait_fmt_empty_step bus _ _ _ h2
      have hi2 : m2.intrLoads = m.intrLoads := by
        have := s2.intrLoads
        have := s1.intrLoads
        omega
      by_cases hc : interrupt_asserted (loadIntrState bus m2).regs OpenTitanI2cIntr.Nak = true
      · rw [if_pos hc] at h
        have := Option.some.inj h
        simp at this
      · rw [if_neg hc] at h
        simp only [Option.bind_eq_some] at h
        obtain ⟨m4, h4, m5, h5, ⟨buf1, m6⟩, h6, h⟩ := h
        have s3 := step_loadIntrState bus m2
        have s4 := blocking_write_step bus _ _ _ _ h4
        have s5 := wait_fmt_empty_step bus _ _ _ h5
        obtain ⟨x, s6⟩ := read_drain_step bus _ _ _ _ _ _ _ _ h6
        have hi6 : m6.intrLoads = m.intrLoads + 1 := by
          have := s6.intrLoads
          have := s5.intrLoads
          have := s4.intrLoads
          have := s3.intrLoads
          omega
        obtain ⟨hle, hall⟩ := ih _ _ _ _ _ h
        dsimp only at hle hall
        refine ⟨by omega, fun i hi1 hi2' => ?_⟩
        by_cases hi : i = m.intrLoads
        · subst hi
          rw [nak_clear_iff, hi2] at hc
          exact hc
        · exact hall i (by omega) hi2'
    · rw [if_neg hidx] at h
      have := Option.some.inj h
      simp only [Prod.mk.injEq, true_and] at this
      obtain ⟨_, rfl⟩ := this
      exact ⟨le_rfl, fun i h1 h2 => absurd h2 (by omega)⟩

/-! ## Facts used by several claims -/

theorem read_eq_loop (bus : Bus) (fuel Addr7 : Nat) (buf : Buffer) {N : Nat} (hN : N < U32)
    (m : Mmio) : read bus fuel Addr7 buf N m = read_loop bus fuel Addr7 N fuel 0 buf m := by
  unfold read
  rw [Nat.mod_eq_of_lt hN]

theorem specReadPushesFrom_length (Addr7 N : Nat) :
    ∀ (k c : Nat), (specReadPushesFrom Addr7 N c k).length = 2 * k := by
  intro k
  induction k with
  | zero => intro c; rfl
  | succ k ih =>
    intro c
    rw [specReadPushesFrom, List.length_append, ih (c + 1)]
    simp only [specChunkPushes, List.length_cons, List.length_nil]
    omega

theorem quietBus_responsive : quietBus.Responsive :=
  ⟨fun _ => ⟨0, (by decide : StatusFmtFull &&& (StatusFmtEmpty % U32) = 0)⟩,
   fun _ => ⟨0, (by decide : StatusFmtEmpty &&& (StatusFmtEmpty % U32) ≠ 0)⟩⟩

theorem quietBus_never_nak : ∀ n, ¬ quietBus.nakAt n :=
  fun _ => (by decide : ¬ ((0 % U32) &&& interrupt_bit OpenTitanI2cIntr.Nak ≠ 0))

theorem nakBus_responsive (k : Nat) : (nakBus k).Responsive :=
  ⟨fun _ => ⟨0, (by decide : StatusFmtFull &&& (StatusFmtEmpty % U32) = 0)⟩,
   fun _ => ⟨0, (by decide : StatusFmtEmpty &&& (StatusFmtEmpty % U32) ≠ 0)⟩⟩

theorem testBit_cleared_nak (v b : Nat) :
    ((v % U32) &&& not32 (interrupt_bit OpenTitanI2cIntr.Nak)).testBit b
      = (decide (b ≠ 4) && (v % U32).testBit b) := by
  rw [testBit_clear, U32_eq, Nat.testBit_mod_two_pow]
  have h4 : OpenTitanI2cIntr.Nak.toNat = 4 := rfl
  rw [h4]
  by_cases h : b = 4
  · subst h; simp
  · have h1 : decide (4 = b) = false := decide_eq_false (fun e => h e.symm)
    have h2 : decide (b ≠ 4) = true := decide_eq_true h
    rw [h1, h2]
    cases decide (b < 32) <;> cases v.testBit b <;> rfl


/-! ## More on the interrupt accessors -/

theorem and_bit_eq_zero_iff (x : Nat) (i : OpenTitanI2cIntr) :
    x &&& interrupt_bit i = 0 ↔ x.testBit i.toNat = false := by
  constructor
  · intro hz
    have := congrArg (fun v => Nat.testBit v i.toNat) hz
    simpa [Nat.testBit_and, testBit_interrupt_bit] using this
  · intro hb
    apply Nat.eq_of_testBit_eq; intro j
    rw [Nat.testBit_and, testBit_interrupt_bit, Nat.zero_testBit]
    by_cases h : i.toNat = j
    · subst h; rw [hb]; rfl
    · simp [h]

theorem interrupt_asserted_eq_testBit (r : OpenTitanI2c) (i : OpenTitanI2cIntr) :
    interrupt_asserted r i = r.intrState.testBit i.toNat := by
  unfold interrupt_asserted
  cases hb : r.intrState.testBit i.toNat
  · have := (and_bit_eq_zero_iff r.intrState i).2 hb
    rw [this]; rfl
  · have : r.intrState &&& interrupt_bit i ≠ 0 := by
      intro hz
      rw [(and_bit_eq_zero_iff r.intrState i).1 hz] at hb
      exact Bool.noConfusion hb
    exact decide_eq_true (fun h => this h.symm)

theorem toNat_injective {f g : OpenTitanI2cIntr} (h : f.toNat = g.toNat) : f = g := by
  cases f <;> cases g <;> first | rfl | exact absurd h (by decide)

theorem testBit_disable_enable (x : Nat) (i : OpenTitanI2cIntr) (j : Nat) :
    (((x ||| interrupt_bit i) % U32) &&& not32 (interrupt_bit i)).testBit j
      = (x.testBit j && decide (j < 32) && !decide (i.toNat = j)) := by
  rw [testBit_clear, testBit_enable]
  generalize x.testBit j = a
  generalize decide (j < 32) = b
  generalize decide (i.toNat = j) = c
  revert a b c; decide

theorem disable_enable_eq_disable (r : OpenTitanI2c) (i : OpenTitanI2cIntr) :
    disable_interrupt (enable_interrupt r i) i = disable_interrupt r i := by
  simp only [disable_interrupt, enable_interrupt]
  congr 1
  apply Nat.eq_of_testBit_eq; intro j
  rw [testBit_disable_enable, testBit_clear]

theorem disable_eq_self_iff (r : OpenTitanI2c) (i : OpenTitanI2cIntr) (h32 : r.intrEnable < U32) :
    disable_interrupt r i = r ↔ r.intrEnable &&& interrupt_bit i = 0 := by
  rw [and_bit_eq_zero_iff]
  constructor
  · intro h
    have e : (disable_interrupt r i).intrEnable.testBit i.toNat = r.intrEnable.testBit i.toNat := by
      rw [h]
    simp only [disable_interrupt, testBit_clear] at e
    simpa using e.symm
  · intro hb
    have e : r.intrEnable &&& not32 (interrupt_bit i) = r.intrEnable := by
      apply Nat.eq_of_testBit_eq; intro j
      rw [testBit_clear]
      cases hj : r.intrEnable.testBit j
      · simp
      · have hlt := testBit_lt_32 h32 hj
        have hne : i.toNat ≠ j := by
          intro h; rw [h] at hb; rw [hb] at hj; exact Bool.noConfusion hj
        simp [hlt, hne]
    cases r
    simp only [disable_interrupt] at e ⊢
    simp only [e]


theorem host_thresholds_value (F R : Nat) :
    ((((F % U16) &&& 0xfff) <<< 16) ||| ((R % U16) &&& 0xfff)) % U32
      = (F % 4096) * 65536 + R % 4096 ∧
    (((F % 4096) <<< 16) ||| (R % 4096)) = (F % 4096) * 65536 + R % 4096 := by
  have m12 : ∀ x : Nat, x &&& 0xfff = x % 4096 := fun x => Nat.and_pow_two_sub_one_eq_mod x 12
  have hF : F % U16 % 4096 = F % 4096 := by dsimp only [U16]; omega
  have hR : R % U16 % 4096 = R % 4096 := by dsimp only [U16]; omega
  have hb : R % 4096 < 2 ^ 16 := by omega
  have key : ((F % 4096) <<< 16) ||| (R % 4096) = (F % 4096) * 65536 + R % 4096 := by
    rw [Nat.shiftLeft_eq, Nat.mul_comm]
    have := (@Nat.mul_add_lt_is_or 16 (R % 4096) hb (F % 4096)).symm
    simpa [Nat.mul_comm] using this
  refine ⟨?_, key⟩
  rw [m12, m12, hF, hR, key]
  dsimp only [U32]; omega

theorem interrupt_bit_ne {f g : OpenTitanI2cIntr} (hfg : f ≠ g) :
    interrupt_bit f ≠ interrupt_bit g := by
  rw [interrupt_bit_eq, interrupt_bit_eq]
  intro h
  exact hfg (toNat_injective (Nat.pow_right_injective (le_refl 2) h))

theorem toNat_ne {f g : OpenTitanI2cIntr} (hfg : f ≠ g) : f.toNat ≠ g.toNat :=
  fun h => hfg (toNat_injective h)

/-! ## More on the timing computation -/

theorem SysclkKhz_eq {hz : Nat} (h : hz + 999 < U32) : SysclkKhz hz = (hz + 999) / 1000 := by
  unfold SysclkKhz
  dsimp only [U32] at h ⊢
  omega

theorem clkPeriod_eq {hz : Nat} (h1 : 1 ≤ hz) (h : hz + 999 < U32) :
    clkPeriod hz = some (1000000 / ((hz + 999) / 1000)) := by
  unfold clkPeriod
  rw [SysclkKhz_eq h, if_neg (by omega)]

theorem clkPeriod_pos_iff {hz : Nat} (h32 : hz < U32) :
    (1 ≤ hz ∧ hz ≤ 1000000000) ↔ ∃ p, clkPeriod hz = some p ∧ 1 ≤ p := by
  constructor
  · rintro ⟨h1, h2⟩
    have hw : hz + 999 < U32 := by dsimp only [U32]; omega
    refine ⟨_, clkPeriod_eq h1 hw, ?_⟩
    have hk : 0 < (hz + 999) / 1000 := by omega
    rw [Nat.le_div_iff_mul_le hk]
    omega
  · rintro ⟨p, hp, hp1⟩
    unfold clkPeriod at hp
    split at hp
    · exact Option.noConfusion hp
    · rename_i hk
      have hk0 : 0 < SysclkKhz hz := Nat.pos_of_ne_zero hk
      have e := Option.some.inj hp
      rw [← e, Nat.le_div_iff_mul_le hk0] at hp1
      dsimp only [U32] at h32
      rcases Nat.lt_or_ge (hz + 999) 4294967296 with hw | hw
      · rw [SysclkKhz_eq (by dsimp only [U32]; exact hw)] at hk0 hp1
        omega
      · exfalso
        have hz0 : SysclkKhz hz = 0 := by
          unfold SysclkKhz
          dsimp only [U32]
          omega
        omega

theorem round_up_divide_isSome {p : Nat} (hp1 : 1 ≤ p) (hp32 : p < U32) (A : Nat) :
    (round_up_divide A p).isSome = true := by
  unfold round_up_divide
  rw [Nat.mod_eq_of_lt hp32, if_neg (by omega)]
  rfl

theorem pack_mod {a b : Nat} (ha : a < U16) (hb : b < U16) :
    ((a <<< 16) ||| b) % U32 = (a <<< 16) ||| b := by
  dsimp only [U16, U32] at *
  have h : a <<< 16 ||| b = 65536 * a + b := by
    rw [Nat.shiftLeft_eq, Nat.mul_comm]
    exact (@Nat.mul_add_lt_is_or 16 b (by omega) a).symm
  rw [h]
  omega

/-- For a dividend of at least 1, `round_up_divide` is the rounded-up quotient
reduced modulo `2^16`, for all 32-bit operands. -/
theorem round_up_divide_of_pos {A B : Nat} (hA : 1 ≤ A) (hA32 : A < U32) (hB : 1 ≤ B)
    (hB32 : B < U32) : round_up_divide A B = some (ceilDiv A B % U16) := by
  dsimp only [U32] at hA32 hB32
  have hBm : B % U32 = B := Nat.mod_eq_of_lt hB32
  have hs : sub32 A 1 = A - 1 := by unfold sub32; dsimp only [U32]; omega
  have hc : ceilDiv A B = (A - 1) / B + 1 := by
    unfold ceilDiv
    have : A + B - 1 = (A - 1) + B := by omega
    rw [this, Nat.add_div_right _ (by omega)]
  have hle : (A - 1) / B ≤ A - 1 := Nat.div_le_self _ _
  unfold round_up_divide
  rw [hBm, hs, hc, if_neg (by omega)]
  generalize (A - 1) / B = q at *
  have : (q + 1) % U32 = q + 1 := by dsimp only [U32]; omega
  rw [this]

/-! ## Format words -/

theorem and_two_pow_ne_zero_iff (w k : Nat) : w &&& 2 ^ k ≠ 0 ↔ w / 2 ^ k % 2 = 1 := by
  have h : w &&& 2 ^ k = 0 ↔ w.testBit k = false := by
    constructor
    · intro hz
      have := congrArg (fun v => Nat.testBit v k) hz
      simpa [Nat.testBit_and, Nat.testBit_two_pow] using this
    · intro hb
      apply Nat.eq_of_testBit_eq; intro j
      rw [Nat.testBit_and, Nat.testBit_two_pow, Nat.zero_testBit]
      by_cases hkj : k = j
      · subst hkj; rw [hb]; rfl
      · simp [hkj]
  rw [Ne, h, Nat.testBit_to_div_mod]
  simp

theorem isFmtWord_of_parts {a b : Nat} (ha : a < 32) (hb : b < 256) (flags : List Nat)
    (h8 : a % 2 = 1 ↔ FDataStart ∈ flags) (h9 : a / 2 % 2 = 1 ↔ FDataStop ∈ flags)
    (h10 : a / 4 % 2 = 1 ↔ FDataReadB ∈ flags) (h11 : a / 8 % 2 = 1 ↔ FDataRCont ∈ flags)
    (h12 : a / 16 % 2 = 1 ↔ FDataNAkOk ∈ flags) : IsFmtWord (256 * a + b) b flags := by
  refine ⟨by omega, by omega, ?_⟩
  have e8 : FDataStart = 2 ^ 8 := by decide
  have e9 : FDataStop = 2 ^ 9 := by decide
  have e10 : FDataReadB = 2 ^ 10 := by decide
  have e11 : FDataRCont = 2 ^ 11 := by decide
  have e12 : FDataNAkOk = 2 ^ 12 := by decide
  intro f hf
  simp only [FDataFlags, List.mem_cons, List.mem_singleton, List.mem_nil_iff, or_false] at hf
  rcases hf with rfl | rfl | rfl | rfl | rfl
  · rw [← h8]; conv_lhs => rw [e8]
    rw [and_two_pow_ne_zero_iff]; norm_num; omega
  · rw [← h9]; conv_lhs => rw [e9]
    rw [and_two_pow_ne_zero_iff]; norm_num; omega
  · rw [← h10]; conv_lhs => rw [e10]
    rw [and_two_pow_ne_zero_iff]; norm_num; omega
  · rw [← h11]; conv_lhs => rw [e11]
    rw [and_two_pow_ne_zero_iff]; norm_num; omega
  · rw [← h12]; conv_lhs => rw [e12]
    rw [and_two_pow_ne_zero_iff]; norm_num; omega

theorem flags_or_byte (a : Nat) {b : Nat} (hb : b < 256) : (256 * a) ||| b = 256 * a + b :=
  (@Nat.mul_add_lt_is_or 8 b hb a).symm


theorem addr_byte_lt {Addr7 rw : Nat} (hA : Addr7 < 128) (hrw : rw < 2) :
    (Addr7 <<< 1) ||| rw < 256 := by
  have h : Addr7 <<< 1 ||| rw = 2 * Addr7 + rw := by
    rw [Nat.shiftLeft_eq, Nat.mul_comm]
    exact (@Nat.mul_add_lt_is_or 1 rw (by omega) Addr7).symm
  rw [h]; omega

theorem isFmtWord_addr {Addr7 rw : Nat} (hA : Addr7 < 128) (hrw : rw < 2) :
    IsFmtWord (FDataStart ||| (Addr7 <<< 1) ||| rw) ((Addr7 <<< 1) ||| rw) [FDataStart] := by
  have e : FDataStart ||| (Addr7 <<< 1) ||| rw = 256 * 1 + ((Addr7 <<< 1) ||| rw) := by
    rw [Nat.lor_assoc, ← flags_or_byte 1 (addr_byte_lt hA hrw)]
    rfl
  rw [e]
  exact isFmtWord_of_parts (by decide) (addr_byte_lt hA hrw) _ (by decide) (by decide)
    (by decide) (by decide) (by decide)

theorem isFmtWord_plain {b : Nat} (hb : b < 256) : IsFmtWord b b [] := by
  have e : b = 256 * 0 + b := by omega
  conv => arg 1; rw [e]
  exact isFmtWord_of_parts (by decide) hb _ (by decide) (by decide) (by decide) (by decide)
    (by decide)

theorem isFmtWord_stop {b : Nat} (hb : b < 256) : IsFmtWord (FDataStop ||| b) b [FDataStop] := by
  have e : FDataStop ||| b = 256 * 2 + b := by
    rw [← flags_or_byte 2 hb]; rfl
  rw [e]
  exact isFmtWord_of_parts (by decide) hb _ (by decide) (by decide) (by decide) (by decide)
    (by decide)

theorem isFmtWord_readb {b : Nat} (hb : b < 256) :
    IsFmtWord (FDataReadB ||| b) b [FDataReadB] := by
  have e : FDataReadB ||| b = 256 * 4 + b := by
    rw [← flags_or_byte 4 hb]; rfl
  rw [e]
  exact isFmtWord_of_parts (by decide) hb _ (by decide) (by decide) (by decide) (by decide)
    (by decide)

theorem isFmtWord_readb_stop {b : Nat} (hb : b < 256) :
    IsFmtWord (FDataStop ||| FDataReadB ||| b) b [FDataReadB, FDataStop] := by
  have e : FDataStop ||| FDataReadB ||| b = 256 * 6 + b := by
    rw [← flags_or_byte 6 hb]; rfl
  rw [e]
  exact isFmtWord_of_parts (by decide) hb _ (by decide) (by decide) (by decide) (by decide)
    (by decide)

theorem mod_U32_of_isFmtWord {w b : Nat} {fl : List Nat} (h : IsFmtWord w b fl) :
    w % U32 = w := by
  have := h.1
  dsimp only [U32]; omega

/-! ## What `write` and `read` can push, on any bus -/

theorem write_loop_pushed (bus : Bus) (spin : Nat) (data : Buffer) (N : Nat) :
    ∀ (fuel i : Nat) (m m' : Mmio), write_loop bus spin data N fuel i m = some m' →
      ∃ ws, m'.fmtFifo = m.fmtFifo ++ ws ∧ ∀ w ∈ ws, ∃ j, w = data j % U8 := by
  intro fuel
  induction fuel with
  | zero => intro i m m' h; exact Option.noConfusion h
  | succ fuel ih =>
    intro i m m' h
    rw [write_loop] at h
    split at h
    · simp only [Option.bind_eq_bind, Option.bind_eq_some] at h
      obtain ⟨m1, h1, h⟩ := h
      have s1 := blocking_write_step bus _ _ _ _ h1
      obtain ⟨ws, hws, hall⟩ := ih _ _ _ h
      have e : data i % U8 % U32 = data i % U8 := by dsimp only [U8, U32]; omega
      refine ⟨data i % U8 :: ws, ?_, ?_⟩
      · rw [hws, s1.fmtFifo, e]; simp
      · intro w hw
        rcases List.mem_cons.1 hw with rfl | hw
        · exact ⟨i, rfl⟩
        · exact hall w hw
    · cases Option.some.inj h
      exact ⟨[], by simp, fun w hw => absurd hw (List.not_mem_nil w)⟩

theorem write_pushed {bus : Bus} {fuel Addr7 N : Nat} {data : Buffer} {SkipStop : Bool}
    {m m' : Mmio} (hA : Addr7 < 128)
    (h : write bus fuel Addr7 data N SkipStop m = some m') :
    ∃ ws, m'.fmtFifo = m.fmtFifo ++ ws ∧ ∀ w ∈ ws, IsWriteWord Addr7 data w := by
  have hAm : Addr7 % U8 = Addr7 := by dsimp only [U8]; omega
  have hd : ∀ j, data j % U8 < 256 := fun j => Nat.mod_lt _ (by decide)
  unfold write at h
  split at h
  · cases Option.some.inj h
    exact ⟨[], by simp, fun w hw => absurd hw (List.not_mem_nil w)⟩
  · simp only [Option.bind_eq_bind, Option.bind_eq_some] at h
    obtain ⟨m1, h1, m2, h2, h3⟩ := h
    have s1 := blocking_write_step bus _ _ _ _ h1
    obtain ⟨ws, hws, hall⟩ := write_loop_pushed bus _ _ _ _ _ _ _ h2
    have s3 := blocking_write_step bus _ _ _ _ h3
    rw [hAm] at s1
    have a1 := isFmtWord_addr hA (show 0 < 2 by decide)
    refine ⟨[FDataStart ||| (Addr7 <<< 1) ||| 0] ++ ws ++
      [((if SkipStop then 0 else FDataStop) ||| (data (sub32 N 1) % U8))], ?_, ?_⟩
    · rw [s3.fmtFifo, hws, s1.fmtFifo, mod_U32_of_isFmtWord a1]
      cases SkipStop
      · simp only [Bool.false_eq_true, if_false]
        rw [mod_U32_of_isFmtWord (isFmtWord_stop (hd _))]
        simp
      · simp only [if_true, Nat.zero_or]
        rw [mod_U32_of_isFmtWord (isFmtWord_plain (hd _))]
        simp
    · intro w hw
      simp only [List.mem_append, List.mem_singleton] at hw
      rcases hw with (rfl | hw) | rfl
      · exact Or.inl a1
      · obtain ⟨j, rfl⟩ := hall w hw
        exact Or.inr ⟨j, Or.inl (isFmtWord_plain (hd j))⟩
      · cases SkipStop
        · simp only [Bool.false_eq_true, if_false]
          exact Or.inr ⟨_, Or.inr (isFmtWord_stop (hd _))⟩
        · simp only [if_true, Nat.zero_or]
          exact Or.inr ⟨_, Or.inl (isFmtWord_plain (hd _))⟩

theorem read_word_isReadWord (Addr7 : Nat) {rem : Nat} (h1 : 1 ≤ rem) :
    IsReadWord Addr7
      (((if decide (UINT8_MAX ≥ rem) then FDataStop else 0) ||| FDataReadB |||
        (if decide (UINT8_MAX ≥ rem) then rem % U8 else UINT8_MAX)) % U32) := by
  dsimp only [UINT8_MAX, U8]
  by_cases hc : 255 ≥ rem
  · have e : rem % 256 = rem := by omega
    simp only [hc, decide_True, if_true, e]
    have hw := isFmtWord_readb_stop (show rem < 256 by omega)
    rw [mod_U32_of_isFmtWord hw]
    exact Or.inr ⟨rem, h1, hc, Or.inr hw⟩
  · simp only [hc, decide_False, Bool.false_eq_true, if_false, Nat.zero_or]
    have hw := isFmtWord_readb (show 255 < 256 by decide)
    rw [mod_U32_of_isFmtWord hw]
    exact Or.inr ⟨255, by decide, le_refl _, Or.inl hw⟩

theorem read_loop_pushed (bus : Bus) (spin : Nat) {Addr7 N : Nat} (hA : Addr7 < 128)
    (hN : N < U32) :
    ∀ (fuel idx : Nat) (buf buf' : Buffer) (m m' : Mmio) (b : Bool),
      read_loop bus spin Addr7 N fuel idx buf m = some (b, buf', m') →
      ∃ ws, m'.fmtFifo = m.fmtFifo ++ ws ∧ ∀ w ∈ ws, IsReadWord Addr7 w := by
  have hAm : Addr7 % U8 = Addr7 := by dsimp only [U8]; omega
  have a1 := isFmtWord_addr hA (show 1 < 2 by decide)
  intro fuel
  induction fuel with
  | zero => intro idx buf buf' m m' b h; exact Option.noConfusion h
  | succ fuel ih =>
    intro idx buf buf' m m' b h
    rw [read_loop] at h
    by_cases hidx : idx < N
    · rw [if_pos hidx] at h
      simp only [Option.bind_eq_bind, Option.bind_eq_some] at h
      obtain ⟨m1, h1, m2, h2, h⟩ := h
      have s1 := blocking_write_step bus _ _ _ _ h1
      have s2 := wait_fmt_empty_step bus _ _ _ h2
      rw [hAm, mod_U32_of_isFmtWord a1] at s1
      by_cases hc : interrupt_asserted (loadIntrState bus m2).regs OpenTitanI2cIntr.Nak = true
      · rw [if_pos hc] at h
        have e := Option.some.inj h
        simp only [Prod.mk.injEq] at e
        obtain ⟨_, _, rfl⟩ := e
        have s := (s1.trans s2).trans
          ((step_loadIntrState bus m2).trans
            (step_clearIntr bus (loadIntrState bus m2) OpenTitanI2cIntr.Nak))
        refine ⟨[FDataStart ||| (Addr7 <<< 1) ||| 1], by simpa using s.fmtFifo, ?_⟩
        intro w hw
        rw [List.mem_singleton] at hw
        subst hw
        exact Or.inl a1
      · rw [if_neg hc] at h
        simp only [Option.bind_eq_some] at h
        obtain ⟨m4, h4, m5, h5, ⟨buf1, m6⟩, h6, h⟩ := h
        have s3 := step_loadIntrState bus m2
        have s4 := blocking_write_step bus _ _ _ _ h4
        have s5 := wait_fmt_empty_step bus _ _ _ h5
        obtain ⟨x, s6⟩ := read_drain_step bus _ _ _ _ _ _ _ _ h6
        obtain ⟨ws, hws, hall⟩ := ih _ _ _ _ _ _ h
        dsimp only at hws
        have hrem : 1 ≤ sub32 N idx := by
          unfold sub32; dsimp only [U32] at hN ⊢; omega
        have hw4 := read_word_isReadWord Addr7 hrem
        have s := ((((s1.trans s2).trans s3).trans s4).trans s5).trans s6
        refine ⟨[FDataStart ||| (Addr7 <<< 1) ||| 1,
          ((if decide (UINT8_MAX ≥ sub32 N idx) then FDataStop else 0) ||| FDataReadB |||
            (if decide (UINT8_MAX ≥ sub32 N idx) then sub32 N idx % U8 else UINT8_MAX)) % U32]
          ++ ws, ?_, ?_⟩
        · rw [hws, s.fmtFifo]; simp
        · intro w hw
          simp only [List.mem_append, List.mem_cons, List.mem_singleton, List.mem_nil_iff,
            or_false] at hw
          rcases hw with (rfl | rfl) | hw
          · exact Or.inl a1
          · exact hw4
          · exact hall w hw
    · rw [if_neg hidx] at h
      have e := Option.some.inj h
      simp only [Prod.mk.injEq] at e
      obtain ⟨_, _, rfl⟩ := e
      exact ⟨[], by simp, fun w hw => absurd hw (List.not_mem_nil w)⟩

theorem read_pushed {bus : Bus} {fuel Addr7 N : Nat} {buf buf' : Buffer} {m m' : Mmio}
    {b : Bool} (hA : Addr7 < 128) (h : read bus fuel Addr7 buf N m = some (b, buf', m')) :
    ∃ ws, m'.fmtFifo = m.fmtFifo ++ ws ∧ ∀ w ∈ ws, IsReadWord Addr7 w := by
  unfold read at h
  exact read_loop_pushed bus fuel hA (Nat.mod_lt _ (by decide)) _ _ _ _ _ _ _ h

/-! ## The number of iterations of the chunk loop -/

theorem read_loop_iterations {bus : Bus} (hb : bus.Responsive) {Addr7 N : Nat}
    (hA : Addr7 < 128) (hN : N < U32) :
    ∀ (d j : Nat) (buf : Buffer) (m : Mmio), j + d = readChunks N →
      (∀ i, i < d → ¬ bus.nakAt (m.intrLoads + i)) →
      ∃ S buf' m', m'.intrLoads = m.intrLoads + d ∧ ∀ spin, S ≤ spin →
        (∀ fuel, fuel ≤ d → read_loop bus spin Addr7 N fuel (255 * j) buf m = none) ∧
        (∀ fuel, d + 1 ≤ fuel →
          read_loop bus spin Addr7 N fuel (255 * j) buf m = some (true, buf', m')) := by
  intro d
  induction d with
  | zero =>
    intro j buf m hj _
    have hge : ¬ 255 * j < N := by unfold readChunks at hj; omega
    refine ⟨0, buf, m, rfl, fun spin _ => ⟨fun fuel hf => ?_, fun fuel hf => ?_⟩⟩
    · have : fuel = 0 := by omega
      subst this
      rw [read_loop]
    · obtain ⟨g, rfl⟩ : ∃ g, fuel = g + 1 := ⟨fuel - 1, by omega⟩
      rw [read_loop, if_neg hge]
  | succ d ih =>
    intro j buf m hj hnak
    have hlt : 255 * j < N := by unfold readChunks at hj; omega
    obtain ⟨F1, buf1, m1, h1, s1, _⟩ :=
      read_chunk_ok hb hA hN hlt buf m (by simpa using hnak 0 (by omega))
    obtain ⟨S2, buf2, m2, hi2, h2⟩ := ih (j + 1) buf1 m1 (by omega) (by
      intro i hi
      have := hnak (i + 1) (by omega)
      rw [s1.intrLoads]
      have e : m.intrLoads + 1 + i = m.intrLoads + (i + 1) := by omega
      rw [e]; exact this)
    refine ⟨max F1 S2, buf2, m2, by rw [hi2, s1.intrLoads]; omega,
      fun spin hs => ⟨fun fuel hf => ?_, fun fuel hf => ?_⟩⟩
    · rcases Nat.eq_zero_or_pos fuel with h0 | hpos
      · subst h0; rw [read_loop]
      · obtain ⟨g, rfl⟩ : ∃ g, fuel = g + 1 := ⟨fuel - 1, by omega⟩
        rw [h1 spin g (by omega)]
        exact (h2 spin (by omega)).1 g (by omega)
    · obtain ⟨g, rfl⟩ : ∃ g, fuel = g + 1 := ⟨fuel - 1, by omega⟩
      rw [h1 spin g (by omega)]
      exact (h2 spin (by omega)).2 g (by omega)

/-! # The claims -/

/-- C1. On a responsive bus that never shows NAK, a read of `N ≥ 1` bytes from a
7-bit address returns `true` and pushes exactly the words of
`specReadPushes`: for each of the `readChunks N = ⌈N / 255⌉` chunks the address
word `FDataStart | (Addr7 << 1) | 1` followed by one read word, which is
`FDataReadB | 255` (Stop clear) for every chunk but the last and
`FDataStop | FDataReadB | (N - 255 * (chunks - 1))` for the last; one NAK check
is made per chunk.  For `N = 300` these are two chunks of sizes 255 and 45. -/
theorem read_issues_chunks (bus : Bus) (Addr7 N : Nat) (buf : Buffer) (m : Mmio)
    (hb : bus.Responsive) (hquiet : ∀ n, ¬ bus.nakAt n) (hA : Addr7 < 128) (hN1 : 1 ≤ N)
    (hN : N < U32) :
    (∃ F buf' m', (∀ fuel, F ≤ fuel → read bus fuel Addr7 buf N m = some (true, buf', m')) ∧
      m'.fmtFifo = m.fmtFifo ++ specReadPushes Addr7 N ∧
      m'.intrLoads = m.intrLoads + readChunks N) ∧
    (specReadPushes Addr7 N).length = 2 * readChunks N ∧
    (255 * (readChunks N - 1) < N ∧ N ≤ 255 * readChunks N) ∧
    (FDataReadB ||| 255) &&& FDataStop = 0 ∧
    (readChunks 300 = 2 ∧
     specReadPushes Addr7 300 =
      [FDataStart ||| (Addr7 <<< 1) ||| 1, FDataReadB ||| 255,
       FDataStart ||| (Addr7 <<< 1) ||| 1, FDataStop ||| FDataReadB ||| 45]) := by
  obtain ⟨F, buf', m', h, s, _⟩ := read_loop_ok hb hA hN (readChunks N) 0 buf m (by omega)
    (fun i _ => hquiet _)
  refine ⟨⟨F, buf', m', fun fuel hf => ?_, s.fmtFifo, s.intrLoads⟩,
    specReadPushesFrom_length Addr7 N _ 0, ?_, by decide, by decide, ?_⟩
  · rw [read_eq_loop bus fuel Addr7 buf hN m]
    exact h fuel fuel hf hf
  · unfold readChunks; omega
  · have h2 : readChunks 300 = 2 := by decide
    simp only [specReadPushes, h2, specReadPushesFrom, specChunkPushes, List.append_nil,
      List.cons_append, List.nil_append]
    simp

/-- C1 on the quiet bus: 300 bytes from address 0x50. -/
theorem read_issues_chunks_witness :
    (quietBus.Responsive ∧ (∀ n, ¬ quietBus.nakAt n) ∧ 0x50 < 128 ∧ 1 ≤ 300 ∧ 300 < U32) ∧
    (∃ F buf' m', (∀ fuel, F ≤ fuel →
        read quietBus fuel 0x50 (fun _ => 0) 300 idle = some (true, buf', m')) ∧
      m'.fmtFifo = idle.fmtFifo ++ specReadPushes 0x50 300 ∧
      m'.intrLoads = idle.intrLoads + readChunks 300) :=
  ⟨⟨quietBus_responsive, quietBus_never_nak, by decide, by decide, by decide⟩,
    (read_issues_chunks quietBus 0x50 300 (fun _ => 0) idle quietBus_responsive
      quietBus_never_nak (by decide) (by decide) (by decide)).1⟩

set_option maxRecDepth 100000

/-- C2 fails on the quiet bus: a read of 256 bytes from address 0x50 returns
`true` after pushing four words, two chunks with read-length fields 255 and 1,
so it is not a single chunk whose read-length field is 0. -/
theorem read_256_single_chunk_counterexample :
    (read quietBus 256 0x50 (fun _ => 0) 256 idle).map
        (fun r => (r.1, r.2.2.fmtFifo, r.2.2.rDataLoads))
      = some (true, [FDataStart ||| (0x50 <<< 1) ||| 1, FDataReadB ||| 255,
                     FDataStart ||| (0x50 <<< 1) ||| 1, FDataStop ||| FDataReadB ||| 1], 256) ∧
    ¬ (∃ w, (read quietBus 256 0x50 (fun _ => 0) 256 idle).map (fun r => r.2.2.fmtFifo)
          = some [FDataStart ||| (0x50 <<< 1) ||| 1, w] ∧ w % 256 = 0) := by
  have h : (read quietBus 256 0x50 (fun _ => 0) 256 idle).map
        (fun r => (r.1, r.2.2.fmtFifo, r.2.2.rDataLoads))
      = some (true, [FDataStart ||| (0x50 <<< 1) ||| 1, FDataReadB ||| 255,
                     FDataStart ||| (0x50 <<< 1) ||| 1, FDataStop ||| FDataReadB ||| 1], 256) := by
    decide
  refine ⟨h, ?_⟩
  rintro ⟨w, hw, _⟩
  cases hr : read quietBus 256 0x50 (fun _ => 0) 256 idle with
  | none => rw [hr] at hw; exact Option.noConfusion hw
  | some r =>
    rw [hr] at h hw
    simp only [Option.map_some', Option.some.injEq, Prod.mk.injEq] at h hw
    rw [h.2.1] at hw
    exact absurd (congrArg List.length hw) (by simp)

/-- C2 as amended. On a responsive bus that never shows NAK, a read of 256 bytes
returns `true` after two chunks: the first read word is `FDataReadB | 255`
(length field 255, no Stop), the second `FDataStop | FDataReadB | 1` (length
field 1); 256 bytes are drained in all, bytes 0..254 by the first chunk and
byte 255 by the second. -/
theorem read_256_two_chunks (bus : Bus) (Addr7 : Nat) (buf : Buffer) (m : Mmio)
    (hb : bus.Responsive) (hquiet : ∀ n, ¬ bus.nakAt n) (hA : Addr7 < 128) :
    ∃ F buf' m', (∀ fuel, F ≤ fuel → read bus fuel Addr7 buf 256 m = some (true, buf', m')) ∧
      m'.fmtFifo = m.fmtFifo ++
        [FDataStart ||| (Addr7 <<< 1) ||| 1, FDataReadB ||| 255,
         FDataStart ||| (Addr7 <<< 1) ||| 1, FDataStop ||| FDataReadB ||| 1] ∧
      ((FDataReadB ||| 255) % 256 = 255 ∧ (FDataStop ||| FDataReadB ||| 1) % 256 = 1) ∧
      m'.rDataLoads = m.rDataLoads + 256 ∧
      (∀ i, i < 256 → buf' i = bus.rData (m.rDataLoads + i) % U8) := by
  have hN : 256 < U32 := by decide
  obtain ⟨F, buf', m', h, s, b⟩ := read_loop_ok hb hA hN (readChunks 256) 0 buf m (by omega)
    (fun i _ => hquiet _)
  refine ⟨F, buf', m', fun fuel hf => ?_, ?_, ⟨by decide, by decide⟩, s.rDataLoads,
    fun i hi => ?_⟩
  · rw [read_eq_loop bus fuel Addr7 buf hN m]
    exact h fuel fuel hf hf
  · rw [s.fmtFifo]
    have h2 : readChunks 256 = 2 := by decide
    simp only [h2, specReadPushesFrom, specChunkPushes, List.append_nil,
      List.cons_append, List.nil_append]
    simp
  · rw [b i, if_pos (by omega)]
    simp

/-- C2 as amended, on the quiet bus. -/
theorem read_256_two_chunks_witness :
    (quietBus.Responsive ∧ (∀ n, ¬ quietBus.nakAt n) ∧ 0x50 < 128) ∧
    ∃ F buf' m', (∀ fuel, F ≤ fuel →
        read quietBus fuel 0x50 (fun _ => 0) 256 idle = some (true, buf', m')) ∧
      m'.fmtFifo = idle.fmtFifo ++
        [FDataStart ||| (0x50 <<< 1) ||| 1, FDataReadB ||| 255,
         FDataStart ||| (0x50 <<< 1) ||| 1, FDataStop ||| FDataReadB ||| 1] ∧
      ((FDataReadB ||| 255) % 256 = 255 ∧ (FDataStop ||| FDataReadB ||| 1) % 256 = 1) ∧
      m'.rDataLoads = idle.rDataLoads + 256 ∧
      (∀ i, i < 256 → buf' i = quietBus.rData (idle.rDataLoads + i) % U8) :=
  ⟨⟨quietBus_responsive, quietBus_never_nak, by decide⟩,
    read_256_two_chunks quietBus 0x50 (fun _ => 0) idle quietBus_responsive
      quietBus_never_nak (by decide)⟩

/-- C3. On a responsive bus, if the NAK check of chunk `k` of a read (the
`k`-th load of `intrState` made by the call, the earlier ones showing NAK
clear) finds bit 4 set, then `read` returns `false`; the final `intrState` is
the value loaded by `clear_interrupt` with bit 4 cleared and every other bit
as loaded; the pushes are the `2k` words of the `k` complete chunks followed by
the address word of chunk `k` and nothing more; `255 * k` bytes were read from
`rData`, none when `k = 0`. -/
theorem read_nak_fails (bus : Bus) (Addr7 N k : Nat) (buf : Buffer) (m : Mmio)
    (hb : bus.Responsive) (hA : Addr7 < 128) (hN : N < U32) (hk : k < readChunks N)
    (hclear : ∀ i, i < k → ¬ bus.nakAt (m.intrLoads + i)) (hnak : bus.nakAt (m.intrLoads + k)) :
    ∃ F buf' m', (∀ fuel, F ≤ fuel → read bus fuel Addr7 buf N m = some (false, buf', m')) ∧
      m'.regs.intrState = (bus.intrState (m.intrLoads + k + 1) % U32)
        &&& not32 (interrupt_bit OpenTitanI2cIntr.Nak) ∧
      (∀ b, m'.regs.intrState.testBit b
        = (decide (b ≠ 4) && (bus.intrState (m.intrLoads + k + 1) % U32).testBit b)) ∧
      m'.fmtFifo = m.fmtFifo ++ specReadPushesFrom Addr7 N 0 k
        ++ [FDataStart ||| (Addr7 <<< 1) ||| 1] ∧
      m'.fmtFifo.length = m.fmtFifo.length + (2 * k + 1) ∧
      m'.rDataLoads = m.rDataLoads + 255 * k ∧
      (k = 0 → m'.fmtFifo = m.fmtFifo ++ [FDataStart ||| (Addr7 <<< 1) ||| 1] ∧
        m'.rDataLoads = m.rDataLoads) := by
  have hlt : 255 * (0 + k) < N := by unfold readChunks at hk; omega
  obtain ⟨F, buf', mNak, h, s, _, _⟩ := read_loop_nak hb hA hN k 0 buf m hlt hclear hnak
  have s' := s.trans (step_clearIntr bus mNak OpenTitanI2cIntr.Nak)
  have hintr : (clear_interrupt_live bus OpenTitanI2cIntr.Nak mNak).regs.intrState
      = (bus.intrState (m.intrLoads + k + 1) % U32)
        &&& not32 (interrupt_bit OpenTitanI2cIntr.Nak) := by
    simp only [clear_interrupt_live, clear_interrupt, loadIntrState, s.intrLoads, Nat.add_assoc]
  have hfifo : (clear_interrupt_live bus OpenTitanI2cIntr.Nak mNak).fmtFifo
      = m.fmtFifo ++ specReadPushesFrom Addr7 N 0 k ++ [FDataStart ||| (Addr7 <<< 1) ||| 1] := by
    rw [s'.fmtFifo]; simp
  refine ⟨F, buf', _, fun fuel hf => ?_, hintr, fun b => ?_, hfifo, ?_, ?_, fun hk0 => ?_⟩
  · rw [read_eq_loop bus fuel Addr7 buf hN m]
    exact h fuel fuel hf hf
  · rw [hintr]; exact testBit_cleared_nak _ b
  · rw [hfifo]
    simp only [List.length_append, specReadPushesFrom_length, List.length_cons, List.length_nil]
    omega
  · have := s'.rDataLoads
    omega
  · subst hk0
    refine ⟨by rw [hfifo]; simp [specReadPushesFrom], ?_⟩
    have := s'.rDataLoads
    omega

/-- C3 on a bus that NAKs the address of the second chunk (`k = 1`) of a
600-byte read, and on a bus that NAKs the very first address (`k = 0`). -/
theorem read_nak_fails_witness :
    (((nakBus 1).Responsive ∧ 0x50 < 128 ∧ 600 < U32 ∧ 1 < readChunks 600 ∧
      (∀ i, i < 1 → ¬ (nakBus 1).nakAt (idle.intrLoads + i)) ∧
      (nakBus 1).nakAt (idle.intrLoads + 1)) ∧
    ∃ F buf' m', (∀ fuel, F ≤ fuel →
        read (nakBus 1) fuel 0x50 (fun _ => 0) 600 idle = some (false, buf', m')) ∧
      m'.regs.intrState = ((nakBus 1).intrState (idle.intrLoads + 1 + 1) % U32)
        &&& not32 (interrupt_bit OpenTitanI2cIntr.Nak) ∧
      (∀ b, m'.regs.intrState.testBit b
        = (decide (b ≠ 4) && ((nakBus 1).intrState (idle.intrLoads + 1 + 1) % U32).testBit b)) ∧
      m'.fmtFifo = idle.fmtFifo ++ specReadPushesFrom 0x50 600 0 1
        ++ [FDataStart ||| (0x50 <<< 1) ||| 1] ∧
      m'.fmtFifo.length = idle.fmtFifo.length + (2 * 1 + 1) ∧
      m'.rDataLoads = idle.rDataLoads + 255 * 1 ∧
      (1 = 0 → m'.fmtFifo = idle.fmtFifo ++ [FDataStart ||| (0x50 <<< 1) ||| 1] ∧
        m'.rDataLoads = idle.rDataLoads)) ∧
    (((nakBus 0).Responsive ∧ 0x50 < 128 ∧ 600 < U32 ∧ 0 < readChunks 600 ∧
      (∀ i, i < 0 → ¬ (nakBus 0).nakAt (idle.intrLoads + i)) ∧
      (nakBus 0).nakAt (idle.intrLoads + 0)) ∧
    ∃ F buf' m', (∀ fuel, F ≤ fuel →
        read (nakBus 0) fuel 0x50 (fun _ => 0) 600 idle = some (false, buf', m')) ∧
      m'.regs.intrState = ((nakBus 0).intrState (idle.intrLoads + 0 + 1) % U32)
        &&& not32 (interrupt_bit OpenTitanI2cIntr.Nak) ∧
      (∀ b, m'.regs.intrState.testBit b
        = (decide (b ≠ 4) && ((nakBus 0).intrState (idle.intrLoads + 0 + 1) % U32).testBit b)) ∧
      m'.fmtFifo = idle.fmtFifo ++ specReadPushesFrom 0x50 600 0 0
        ++ [FDataStart ||| (0x50 <<< 1) ||| 1] ∧
      m'.fmtFifo.length = idle.fmtFifo.length + (2 * 0 + 1) ∧
      m'.rDataLoads = idle.rDataLoads + 255 * 0 ∧
      (0 = 0 → m'.fmtFifo = idle.fmtFifo ++ [FDataStart ||| (0x50 <<< 1) ||| 1] ∧
        m'.rDataLoads = idle.rDataLoads)) :=
  ⟨⟨⟨nakBus_responsive 1, by decide, by decide, by decide, by decide, by decide⟩,
    read_nak_fails (nakBus 1) 0x50 600 1 (fun _ => 0) idle (nakBus_responsive 1) (by decide)
      (by decide) (by decide) (by decide) (by decide)⟩,
   ⟨⟨nakBus_responsive 0, by decide, by decide, by decide, by decide, by decide⟩,
    read_nak_fails (nakBus 0) 0x50 600 0 (fun _ => 0) idle (nakBus_responsive 0) (by decide)
      (by decide) (by decide) (by decide) (by decide)⟩⟩

/-- C4. On a bus where every wait for room in the format FIFO ends, a write of
`N ≥ 1` bytes to a 7-bit address returns after pushing exactly `N + 1` words:
`FDataStart | (Addr7 << 1) | 0`, then `data[0] .. data[N-2]` as plain bytes,
then `data[N-1] | FDataStop`, or plain `data[N-1]` when `SkipStop`.  It makes
no load of `intrState` (nor of `rData`) and leaves `intrState` as it was. -/
theorem write_pushes (bus : Bus) (Addr7 N : Nat) (data : Buffer) (SkipStop : Bool) (m : Mmio)
    (hb : bus.EventuallyNotFull) (hA : Addr7 < 128) (hN1 : 1 ≤ N) (hN : N < U32) :
    ∃ F m', (∀ fuel, F ≤ fuel → write bus fuel Addr7 data N SkipStop m = some m') ∧
      m'.fmtFifo = m.fmtFifo ++ specWritePushes Addr7 data N SkipStop ∧
      (specWritePushes Addr7 data N SkipStop).length = N + 1 ∧
      m'.intrLoads = m.intrLoads ∧ m'.regs.intrState = m.regs.intrState ∧
      m'.rDataLoads = m.rDataLoads := by
  obtain ⟨F, m', h, s⟩ := write_returns hb Addr7 data hA hN1 hN SkipStop m
  refine ⟨F, m', h, s.fmtFifo, ?_, s.intrLoads, s.intrKeep rfl, s.rDataLoads⟩
  simp only [specWritePushes, List.length_append, List.length_cons, List.length_nil,
    List.length_map, List.length_range]
  omega

/-- C4 on the quiet bus: four bytes to address 0x50 with a closing Stop. -/
theorem write_pushes_witness :
    (quietBus.EventuallyNotFull ∧ 0x50 < 128 ∧ 1 ≤ 4 ∧ 4 < U32) ∧
    ∃ F m', (∀ fuel, F ≤ fuel →
        write quietBus fuel 0x50 (fun i => i + 1) 4 false idle = some m') ∧
      m'.fmtFifo = idle.fmtFifo ++ specWritePushes 0x50 (fun i => i + 1) 4 false ∧
      (specWritePushes 0x50 (fun i => i + 1) 4 false).length = 4 + 1 ∧
      m'.intrLoads = idle.intrLoads ∧ m'.regs.intrState = idle.regs.intrState ∧
      m'.rDataLoads = idle.rDataLoads :=
  ⟨⟨quietBus_responsive.1, by decide, by decide, by decide⟩,
    write_pushes quietBus 0x50 4 (fun i => i + 1) false idle quietBus_responsive.1
      (by decide) (by decide) (by decide)⟩

/-- C5. For a device clock whose computed period `p` is at least 1 and any 32-bit
`SpeedKhz`: the mode is 0 up to 100 kHz, 1 up to 400 kHz and 2 above (so 100,
400, 1000 give 0, 1, 2); `set_speed` succeeds; the ten 16-bit halves of the
timing registers are exactly the ten computed values, which are the
untruncated rounded-up quotients (after the clamp); and each half is at least
the rounded-up quotient of its nanosecond minimum by `p`, equivalently each
half times `p` is at least that minimum. -/
theorem set_speed_meets_spec (hz SpeedKhz p : Nat) (r : OpenTitanI2c)
    (hs : SpeedKhz < U32) (hp : clkPeriod hz = some p) (hp1 : 1 ≤ p) :
    busMode SpeedKhz = (if SpeedKhz ≤ 100 then 0 else if SpeedKhz ≤ 400 then 1 else 2) ∧
    (busMode 100 = 0 ∧ busMode 400 = 1 ∧ busMode 1000 = 2) ∧
    ∃ r', set_speed hz SpeedKhz r = some r' ∧
      computeTimings (busMode SpeedKhz) p = some (unpackTimings r') ∧
      unpackTimings r' = idealTimings (busMode SpeedKhz) p ∧
      Timings.Forall₂ (fun v ns => ceilDiv ns p ≤ v ∧ ns ≤ v * p)
        (unpackTimings r') (specNs (busMode SpeedKhz)) := by
  have hp32 := clkPeriod_lt hp
  have hm := busMode_lt SpeedKhz
  obtain ⟨e1, e2⟩ := set_speed_eq SpeedKhz r hp hp1
  refine ⟨?_, ⟨by decide, by decide, by decide⟩, _, e1, ?_, e2, ?_⟩
  · unfold busMode
    rw [Nat.mod_eq_of_lt hs]
    split_ifs <;> omega
  · rw [e2]; exact computeTimings_exact hm hp1 hp32
  · rw [e2]
    obtain ⟨h1, h2, h3, h4, h5, h6, h7, h8, h9, h10⟩ := idealTimings_facts hm hp1 hp32
    exact ⟨⟨h1.1, h1.2.1⟩, ⟨h2.1, h2.2.1⟩, ⟨h3.1, h3.2.1⟩, ⟨h4.1, h4.2.1⟩, ⟨h5.1, h5.2.1⟩,
      ⟨h6.1, h6.2.1⟩, ⟨h7.1, h7.2.1⟩, ⟨h8.1, h8.2.1⟩, ⟨h9.1, h9.2.1⟩, ⟨h10.1, h10.2.1⟩⟩

/-- C5 at a 40 MHz device clock (period 25 ns) and 400 kHz. -/
theorem set_speed_meets_spec_witness :
    (400 < U32 ∧ clkPeriod 40000000 = some 25 ∧ 1 ≤ 25) ∧
    (busMode 400 = (if 400 ≤ 100 then 0 else if 400 ≤ 400 then 1 else 2) ∧
    (busMode 100 = 0 ∧ busMode 400 = 1 ∧ busMode 1000 = 2) ∧
    ∃ r', set_speed 40000000 400 zeroRegs = some r' ∧
      computeTimings (busMode 400) 25 = some (unpackTimings r') ∧
      unpackTimings r' = idealTimings (busMode 400) 25 ∧
      Timings.Forall₂ (fun v ns => ceilDiv ns 25 ≤ v ∧ ns ≤ v * 25)
        (unpackTimings r') (specNs (busMode 400))) :=
  ⟨⟨by decide, by decide, by decide⟩,
    set_speed_meets_spec 40000000 400 25 zeroRegs (by decide) (by decide) (by decide)⟩

/-- C6. For every speed and every 32-bit clock period `p ≥ 1`, the timing values
computed by `set_speed` satisfy `thdDat < tLow` and `tsuSta < tBuf`; all four
fit in 16 bits together with `thdDat + 1` and `tsuSta + 1` (the clamp does not
wrap); the same inequalities hold between the stored register halves; and
these are the values `set_speed` writes whenever the device clock has period
`p`. -/
theorem set_speed_clamp_invariant (SpeedKhz p : Nat) (r : OpenTitanI2c)
    (hp1 : 1 ≤ p) (hp32 : p < U32) :
    ∃ t, computeTimings (busMode SpeedKhz) p = some t ∧
      t.thdDat < t.tLow ∧ t.tsuSta < t.tBuf ∧
      t.tLow < U16 ∧ t.tBuf < U16 ∧ t.thdDat + 1 < U16 ∧ t.tsuSta + 1 < U16 ∧
      (unpackTimings (storeTimings t r)).thdDat < (unpackTimings (storeTimings t r)).tLow ∧
      (unpackTimings (storeTimings t r)).tsuSta < (unpackTimings (storeTimings t r)).tBuf ∧
      (∀ hz, clkPeriod hz = some p → set_speed hz SpeedKhz r = some (storeTimings t r)) := by
  have hm := busMode_lt SpeedKhz
  obtain ⟨h1, h2, h3, h4, h5, h6, h7, h8, h9, h10⟩ := idealTimings_facts hm hp1 hp32
  have hu : unpackTimings (storeTimings (idealTimings (busMode SpeedKhz) p) r)
      = idealTimings (busMode SpeedKhz) p := by
    apply unpack_store
    refine ⟨?_, ?_, ?_, ?_, ?_, ?_, ?_, ?_, ?_, ?_⟩ <;> dsimp only [U16] <;> omega
  have hL : (idealTimings (busMode SpeedKhz) p).thdDat < (idealTimings (busMode SpeedKhz) p).tLow :=
    lt_of_lt_of_le (Nat.lt_succ_self _) (le_max_right _ _)
  have hB : (idealTimings (busMode SpeedKhz) p).tsuSta < (idealTimings (busMode SpeedKhz) p).tBuf :=
    lt_of_lt_of_le (Nat.lt_succ_self _) (le_max_right _ _)
  refine ⟨_, computeTimings_exact hm hp1 hp32, hL, hB, ?_, ?_, ?_, ?_, ?_, ?_, ?_⟩
  · dsimp only [U16]; omega
  · dsimp only [U16]; omega
  · dsimp only [U16]; omega
  · dsimp only [U16]; omega
  · rw [hu]; exact hL
  · rw [hu]; exact hB
  · intro hz hp
    exact (set_speed_eq SpeedKhz r hp hp1).1

/-- C6 at Fast-Plus mode and a 25 ns period, where `tLow` is clamped from 6 to 2
cycles above `thdDat`. -/
theorem set_speed_clamp_invariant_witness :
    (1 ≤ 25 ∧ 25 < U32) ∧
    ∃ t, computeTimings (busMode 1000) 25 = some t ∧
      t.thdDat < t.tLow ∧ t.tsuSta < t.tBuf ∧
      t.tLow < U16 ∧ t.tBuf < U16 ∧ t.thdDat + 1 < U16 ∧ t.tsuSta + 1 < U16 ∧
      (unpackTimings (storeTimings t zeroRegs)).thdDat
        < (unpackTimings (storeTimings t zeroRegs)).tLow ∧
      (unpackTimings (storeTimings t zeroRegs)).tsuSta
        < (unpackTimings (storeTimings t zeroRegs)).tBuf ∧
      (∀ hz, clkPeriod hz = some 25 → set_speed hz 1000 zeroRegs = some (storeTimings t zeroRegs)) :=
  ⟨⟨by decide, by decide⟩, set_speed_clamp_invariant 1000 25 zeroRegs (by decide) (by decide)⟩

/-- C7. On a responsive bus that never shows NAK, a read of `N ≥ 1` bytes returns
`true` after exactly `N` loads of `rData`; byte `i < N` of the buffer is the
low 8 bits of the `i`-th of these loads, so chunk `c` lands at offset
`255 * c`; bytes at index `N` and beyond are untouched.  Conversely, on any
bus and with any fuel, `read` returns `true` only if every NAK check it made
(every load of `intrState` during the call) found the bit clear. -/
theorem read_fills_buffer (bus : Bus) (Addr7 N : Nat) (buf : Buffer) (m : Mmio)
    (hb : bus.Responsive) (hquiet : ∀ n, ¬ bus.nakAt n) (hA : Addr7 < 128) (hN1 : 1 ≤ N)
    (hN : N < U32) :
    (∃ F buf' m', (∀ fuel, F ≤ fuel → read bus fuel Addr7 buf N m = some (true, buf', m')) ∧
      m'.rDataLoads = m.rDataLoads + N ∧
      (∀ i, i < N → buf' i = bus.rData (m.rDataLoads + i) % U8) ∧
      (∀ c i, i < 255 → 255 * c + i < N →
        buf' (255 * c + i) = bus.rData (m.rDataLoads + (255 * c + i)) % U8) ∧
      (∀ i, N ≤ i → buf' i = buf i)) ∧
    (∀ (other : Bus) (fuel : Nat) (buf' : Buffer) (m' : Mmio),
      read other fuel Addr7 buf N m = some (true, buf', m') →
      ∀ i, m.intrLoads ≤ i → i < m'.intrLoads → ¬ other.nakAt i) := by
  have _ := hN1
  constructor
  · obtain ⟨F, buf', m', h, s, b⟩ := read_loop_ok hb hA hN (readChunks N) 0 buf m (by omega)
      (fun i _ => hquiet _)
    have bi : ∀ i, i < N → buf' i = bus.rData (m.rDataLoads + i) % U8 := by
      intro i hi
      rw [b i, if_pos (by omega)]
      simp
    refine ⟨F, buf', m', fun fuel hf => ?_, s.rDataLoads, bi, fun c i _ hci => bi _ hci,
      fun i hi => ?_⟩
    · rw [read_eq_loop bus fuel Addr7 buf hN m]
      exact h fuel fuel hf hf
    · rw [b i, if_neg (by omega)]
  · intro other fuel buf' m' h
    rw [read_eq_loop other fuel Addr7 buf hN m] at h
    exact (read_loop_true_only_without_nak other fuel Addr7 N fuel 0 buf buf' m m' h).2

/-- C7 on the quiet bus: 300 bytes from address 0x50. -/
theorem read_fills_buffer_witness :
    (quietBus.Responsive ∧ (∀ n, ¬ quietBus.nakAt n) ∧ 0x50 < 128 ∧ 1 ≤ 300 ∧ 300 < U32) ∧
    ∃ F buf' m', (∀ fuel, F ≤ fuel →
        read quietBus fuel 0x50 (fun _ => 0) 300 idle = some (true, buf', m')) ∧
      m'.rDataLoads = idle.rDataLoads + 300 ∧
      (∀ i, i < 300 → buf' i = quietBus.rData (idle.rDataLoads + i) % U8) ∧
      (∀ c i, i < 255 → 255 * c + i < 300 →
        buf' (255 * c + i) = quietBus.rData (idle.rDataLoads + (255 * c + i)) % U8) ∧
      (∀ i, 300 ≤ i → buf' i = (fun _ => 0) i) :=
  ⟨⟨quietBus_responsive, quietBus_never_nak, by decide, by decide, by decide⟩,
    (read_fills_buffer quietBus 0x50 300 (fun _ => 0) idle quietBus_responsive
      quietBus_never_nak (by decide) (by decide) (by decide)).1⟩

/-- C8. On a responsive bus, when the NAK check of chunk `k` finds NAK (the
earlier checks having found it clear), `read` returns `false` with the buffer
holding in bytes `0 .. 255*k - 1` the first `255 * k` bytes read from `rData`
and every byte from `255 * k` on as before the call.  With `mNak` the driver
state at the moment NAK was found, the failure path leads to the final state
by `clear_interrupt` alone: every register but `intrState` is as in `mNak`,
`intrState` is the loaded value with only bit 4 cleared, and nothing is
pushed, polled or drained.  Over the whole call only `status`, `fData`,
`rData` and `intrState` change. -/
theorem read_nak_buffer (bus : Bus) (Addr7 N k : Nat) (buf : Buffer) (m : Mmio)
    (hb : bus.Responsive) (hA : Addr7 < 128) (hN : N < U32) (hk : k < readChunks N)
    (hclear : ∀ i, i < k → ¬ bus.nakAt (m.intrLoads + i)) (hnak : bus.nakAt (m.intrLoads + k)) :
    ∃ (F : Nat) (buf' : Buffer) (mNak m' : Mmio),
      (∀ fuel, F ≤ fuel → read bus fuel Addr7 buf N m = some (false, buf', m')) ∧
      (∀ i, i < 255 * k → buf' i = bus.rData (m.rDataLoads + i) % U8) ∧
      (∀ i, 255 * k ≤ i → buf' i = buf i) ∧
      interrupt_asserted mNak.regs OpenTitanI2cIntr.Nak = true ∧
      m'.regs = { mNak.regs with
        intrState := (bus.intrState mNak.intrLoads % U32)
          &&& not32 (interrupt_bit OpenTitanI2cIntr.Nak) } ∧
      (∀ b, m'.regs.intrState.testBit b
        = (decide (b ≠ 4) && (bus.intrState mNak.intrLoads % U32).testBit b)) ∧
      m'.fmtFifo = mNak.fmtFifo ∧ m'.statusLoads = mNak.statusLoads ∧
      m'.rDataLoads = mNak.rDataLoads ∧
      m'.regs = { m.regs with status := m'.regs.status, fData := m'.regs.fData,
                              rData := m'.regs.rData, intrState := m'.regs.intrState } := by
  have hlt : 255 * (0 + k) < N := by unfold readChunks at hk; omega
  obtain ⟨F, buf', mNak, h, s, ha, b⟩ := read_loop_nak hb hA hN k 0 buf m hlt hclear hnak
  have s' := s.trans (step_clearIntr bus mNak OpenTitanI2cIntr.Nak)
  refine ⟨F, buf', mNak, clear_interrupt_live bus OpenTitanI2cIntr.Nak mNak,
    fun fuel hf => ?_, fun i hi => ?_, fun i hi => ?_, ha, rfl, fun b => ?_, rfl, rfl, rfl,
    s'.regs⟩
  · rw [read_eq_loop bus fuel Addr7 buf hN m]
    exact h fuel fuel hf hf
  · rw [b i, if_pos (by omega)]
    simp
  · rw [b i, if_neg (by omega)]
  · exact testBit_cleared_nak _ b

/-- C8 on a bus that NAKs the address of the second chunk (`k = 1`) of a
600-byte read. -/
theorem read_nak_buffer_witness :
    ((nakBus 1).Responsive ∧ 0x50 < 128 ∧ 600 < U32 ∧ 1 < readChunks 600 ∧
      (∀ i, i < 1 → ¬ (nakBus 1).nakAt (idle.intrLoads + i)) ∧
      (nakBus 1).nakAt (idle.intrLoads + 1)) ∧
    ∃ (F : Nat) (buf' : Buffer) (mNak m' : Mmio),
      (∀ fuel, F ≤ fuel → read (nakBus 1) fuel 0x50 (fun _ => 7) 600 idle
        = some (false, buf', m')) ∧
      (∀ i, i < 255 * 1 → buf' i = (nakBus 1).rData (idle.rDataLoads + i) % U8) ∧
      (∀ i, 255 * 1 ≤ i → buf' i = (fun _ => 7) i) ∧
      interrupt_asserted mNak.regs OpenTitanI2cIntr.Nak = true ∧
      m'.regs = { mNak.regs with
        intrState := ((nakBus 1).intrState mNak.intrLoads % U32)
          &&& not32 (interrupt_bit OpenTitanI2cIntr.Nak) } ∧
      (∀ b, m'.regs.intrState.testBit b
        = (decide (b ≠ 4) && ((nakBus 1).intrState mNak.intrLoads % U32).testBit b)) ∧
      m'.fmtFifo = mNak.fmtFifo ∧ m'.statusLoads = mNak.statusLoads ∧
      m'.rDataLoads = mNak.rDataLoads ∧
      m'.regs = { idle.regs with status := m'.regs.status, fData := m'.regs.fData,
                                 rData := m'.regs.rData, intrState := m'.regs.intrState } :=
  ⟨⟨nakBus_responsive 1, by decide, by decide, by decide, by decide, by decide⟩,
    read_nak_buffer (nakBus 1) 0x50 600 1 (fun _ => 7) idle (nakBus_responsive 1) (by decide)
      (by decide) (by decide) (by decide) (by decide)⟩

/-- C9. A zero-length transfer does nothing: for every bus, address, buffer and
driver state, `write` with `NumBytes = 0` returns with the state unchanged
whatever `SkipStop` is, and `read` with `NumBytes = 0` returns `true` with the
buffer and the state unchanged: no word is pushed, no register is loaded or
stored. -/
theorem zero_length_noop (bus : Bus) (fuel Addr7 : Nat) (data buf : Buffer) (SkipStop : Bool)
    (m : Mmio) :
    write bus fuel Addr7 data 0 SkipStop m = some m ∧
    read bus (fuel + 1) Addr7 buf 0 m = some (true, buf, m) := by
  constructor
  · unfold write
    rw [if_pos (by decide)]
  · unfold read
    rw [read_loop, if_neg (by decide)]

/-- C10. Applying `clear_interrupt`, `enable_interrupt` or `disable_interrupt`
twice for the same flag, with no hardware change in between, gives the same
register block as applying it once; and `clear_interrupt` for a flag that is
not asserted leaves a 32-bit `intrState`, hence the whole block, unchanged. -/
theorem interrupt_ops_idempotent (r : OpenTitanI2c) (i : OpenTitanI2cIntr) :
    clear_interrupt (clear_interrupt r i) i = clear_interrupt r i ∧
    enable_interrupt (enable_interrupt r i) i = enable_interrupt r i ∧
    disable_interrupt (disable_interrupt r i) i = disable_interrupt r i ∧
    (r.intrState < U32 → interrupt_asserted r i = false → clear_interrupt r i = r) := by
  refine ⟨?_, ?_, ?_, ?_⟩
  · simp only [clear_interrupt]
    congr 1
    apply Nat.eq_of_testBit_eq; intro j
    simp only [testBit_clear]
    generalize r.intrState.testBit j = a
    generalize decide (j < 32) = b
    generalize decide (i.toNat = j) = c
    revert a b c; decide
  · simp only [enable_interrupt]
    congr 1
    apply Nat.eq_of_testBit_eq; intro j
    simp only [testBit_enable]
    generalize r.intrEnable.testBit j = a
    generalize decide (j < 32) = b
    generalize decide (i.toNat = j) = c
    revert a b c; decide
  · simp only [disable_interrupt]
    congr 1
    apply Nat.eq_of_testBit_eq; intro j
    simp only [testBit_clear]
    generalize r.intrEnable.testBit j = a
    generalize decide (j < 32) = b
    generalize decide (i.toNat = j) = c
    revert a b c; decide
  · intro hlt hclr
    have hz : r.intrState &&& interrupt_bit i = 0 := by
      unfold interrupt_asserted at hclr
      have h := of_decide_eq_false hclr
      exact (not_not.mp h).symm
    have hbit : r.intrState.testBit i.toNat = false := by
      have := congrArg (fun v => Nat.testBit v i.toNat) hz
      simpa [Nat.testBit_and, testBit_interrupt_bit] using this
    have e : r.intrState &&& not32 (interrupt_bit i) = r.intrState := by
      apply Nat.eq_of_testBit_eq; intro j
      rw [testBit_clear]
      cases hj : r.intrState.testBit j
      · simp
      · have h32 := testBit_lt_32 hlt hj
        have hne : i.toNat ≠ j := by
          intro h; rw [h] at hbit; rw [hbit] at hj; exact Bool.noConfusion hj
        simp [h32, hne]
    cases r
    simp only [clear_interrupt] at e ⊢
    simp only [e]

/-- The register block used to illustrate C10: `intrState` shows FmtThreshold and
CmdComplete, `intrEnable` enables RxOverflow. -/
theorem interrupt_ops_idempotent_witness :
    ({ zeroRegs with intrState := 0x201, intrEnable := 0x8 }).intrState < U32 ∧
    interrupt_asserted { zeroRegs with intrState := 0x201, intrEnable := 0x8 }
      OpenTitanI2cIntr.Nak = false ∧
    clear_interrupt { zeroRegs with intrState := 0x201, intrEnable := 0x8 } OpenTitanI2cIntr.Nak
      = { zeroRegs with intrState := 0x201, intrEnable := 0x8 } :=
  ⟨by decide, by decide,
    (interrupt_ops_idempotent { zeroRegs with intrState := 0x201, intrEnable := 0x8 }
      OpenTitanI2cIntr.Nak).2.2.2 (by decide) (by decide)⟩

/-- C11 fails when the flag is already enabled: with `intrEnable = 0x10` (Nak
enabled), enabling and then disabling Nak leaves `intrEnable = 0`, not `0x10`. -/
theorem enable_disable_restores_counterexample :
    (disable_interrupt (enable_interrupt { zeroRegs with intrEnable := 0x10 }
        OpenTitanI2cIntr.Nak) OpenTitanI2cIntr.Nak).intrEnable = 0 ∧
    (disable_interrupt (enable_interrupt { zeroRegs with intrEnable := 0x10 }
        OpenTitanI2cIntr.Nak) OpenTitanI2cIntr.Nak).intrEnable
      ≠ ({ zeroRegs with intrEnable := 0x10 } : OpenTitanI2c).intrEnable := by
  decide

/-- C11 as amended. For every flag and every 32-bit `intrEnable`,
`enable_interrupt` followed by `disable_interrupt` of the same flag leaves the
original value with that flag's bit cleared (the same block as
`disable_interrupt` alone); this is the original block exactly when the flag
was not enabled beforehand. -/
theorem enable_disable_clears (r : OpenTitanI2c) (i : OpenTitanI2cIntr)
    (h32 : r.intrEnable < U32) :
    disable_interrupt (enable_interrupt r i) i = disable_interrupt r i ∧
    (∀ j, (disable_interrupt (enable_interrupt r i) i).intrEnable.testBit j
      = (r.intrEnable.testBit j && !decide (i.toNat = j))) ∧
    (disable_interrupt (enable_interrupt r i) i = r ↔ r.intrEnable &&& interrupt_bit i = 0) := by
  refine ⟨disable_enable_eq_disable r i, fun j => ?_, ?_⟩
  · simp only [disable_interrupt, enable_interrupt]
    rw [testBit_disable_enable]
    cases hj : r.intrEnable.testBit j
    · simp
    · simp [testBit_lt_32 h32 hj]
  · rw [disable_enable_eq_disable]
    exact disable_eq_self_iff r i h32

/-- C11 as amended, on a block with RxOverflow enabled and Nak disabled: here the
original value does come back. -/
theorem enable_disable_clears_witness :
    ({ zeroRegs with intrEnable := 0x8 } : OpenTitanI2c).intrEnable < U32 ∧
    disable_interrupt (enable_interrupt { zeroRegs with intrEnable := 0x8 }
        OpenTitanI2cIntr.Nak) OpenTitanI2cIntr.Nak
      = disable_interrupt { zeroRegs with intrEnable := 0x8 } OpenTitanI2cIntr.Nak ∧
    (disable_interrupt (enable_interrupt { zeroRegs with intrEnable := 0x8 }
        OpenTitanI2cIntr.Nak) OpenTitanI2cIntr.Nak = { zeroRegs with intrEnable := 0x8 }
      ↔ ({ zeroRegs with intrEnable := 0x8 } : OpenTitanI2c).intrEnable
          &&& interrupt_bit OpenTitanI2cIntr.Nak = 0) :=
  ⟨by decide,
   (enable_disable_clears { zeroRegs with intrEnable := 0x8 } OpenTitanI2cIntr.Nak
      (by decide)).1,
   (enable_disable_clears { zeroRegs with intrEnable := 0x8 } OpenTitanI2cIntr.Nak
      (by decide)).2.2⟩

/-- C12. For every pair of arguments, `set_host_thresholds` changes only
`hostFifoConfig`, to `((FmtThresh mod 4096) << 16) | (RxThresh mod 4096)`:
bits 27..16 hold the format threshold modulo 4096, bits 11..0 the RX threshold
modulo 4096, and bits 15..12 and 31..28 (and everything above) are zero. -/
theorem set_host_thresholds_packs (r : OpenTitanI2c) (FmtThresh RxThresh : Nat) :
    set_host_thresholds r FmtThresh RxThresh
      = { r with hostFifoConfig := ((FmtThresh % 4096) <<< 16) ||| (RxThresh % 4096) } ∧
    (set_host_thresholds r FmtThresh RxThresh).hostFifoConfig / 65536 % 4096
      = FmtThresh % 4096 ∧
    (set_host_thresholds r FmtThresh RxThresh).hostFifoConfig % 4096 = RxThresh % 4096 ∧
    (set_host_thresholds r FmtThresh RxThresh).hostFifoConfig / 4096 % 16 = 0 ∧
    (set_host_thresholds r FmtThresh RxThresh).hostFifoConfig / 268435456 = 0 := by
  obtain ⟨h1, h2⟩ := host_thresholds_value FmtThresh RxThresh
  simp only [set_host_thresholds, h1, h2]
  refine ⟨trivial, ?_, ?_, ?_, ?_⟩ <;> omega

/-- C13. The fifteen flags, in declaration order, have the values 0..14 (Nak is 4)
and `interrupt_bit` maps each to the single bit of that index, so distinct
flags get distinct bits.  For flags `f ≠ g`: after `clear_interrupt(f)`,
`interrupt_asserted(f)` is false, `interrupt_asserted(g)` is as before and no
register but `intrState` differs; `enable_interrupt(f)` sets and
`disable_interrupt(f)` clears bit `f` of `intrEnable`, every other bit of the
32-bit register keeps its value, and no register but `intrEnable` differs.
`interrupt_asserted` returns a boolean only: it has no register block to
change. -/
theorem interrupt_accessors_frame (r : OpenTitanI2c) (f g : OpenTitanI2cIntr) (hfg : f ≠ g) :
    (OpenTitanI2cIntr.all.map OpenTitanI2cIntr.toNat = List.range 15 ∧
      f ∈ OpenTitanI2cIntr.all ∧ OpenTitanI2cIntr.Nak.toNat = 4 ∧
      interrupt_bit f = 2 ^ f.toNat ∧ interrupt_bit f ≠ interrupt_bit g) ∧
    (interrupt_asserted (clear_interrupt r f) f = false ∧
      interrupt_asserted (clear_interrupt r f) g = interrupt_asserted r g ∧
      clear_interrupt r f = { r with intrState := (clear_interrupt r f).intrState }) ∧
    ((enable_interrupt r f).intrEnable.testBit f.toNat = true ∧
      (∀ j, j < 32 → j ≠ f.toNat →
        (enable_interrupt r f).intrEnable.testBit j = r.intrEnable.testBit j) ∧
      enable_interrupt r f = { r with intrEnable := (enable_interrupt r f).intrEnable }) ∧
    ((disable_interrupt r f).intrEnable.testBit f.toNat = false ∧
      (∀ j, j < 32 → j ≠ f.toNat →
        (disable_interrupt r f).intrEnable.testBit j = r.intrEnable.testBit j) ∧
      disable_interrupt r f = { r with intrEnable := (disable_interrupt r f).intrEnable }) := by
  have hf := toNat_lt f
  have hg := toNat_lt g
  have hne := toNat_ne hfg
  refine ⟨⟨by decide, by cases f <;> decide, rfl, interrupt_bit_eq f, interrupt_bit_ne hfg⟩,
    ⟨?_, ?_, rfl⟩, ⟨?_, fun j hj hjf => ?_, rfl⟩, ⟨?_, fun j hj hjf => ?_, rfl⟩⟩
  · rw [interrupt_asserted_eq_testBit]
    simp only [clear_interrupt, testBit_clear]
    simp
  · rw [interrupt_asserted_eq_testBit, interrupt_asserted_eq_testBit]
    simp only [clear_interrupt, testBit_clear]
    have h32 : g.toNat < 32 := by omega
    simp [h32, hne]
  · simp only [enable_interrupt, testBit_enable]
    have h32 : f.toNat < 32 := by omega
    simp [h32]
  · simp only [enable_interrupt, testBit_enable]
    have hjf' : ¬ (f.toNat = j) := fun h => hjf h.symm
    simp [hj, hjf']
  · simp only [disable_interrupt, testBit_clear]
    simp
  · simp only [disable_interrupt, testBit_clear]
    have hjf' : ¬ (f.toNat = j) := fun h => hjf h.symm
    simp [hj, hjf']

/-- C13 for Nak and CmdComplete on a block that shows FmtThreshold, Nak and
CmdComplete and enables RxOverflow. -/
theorem interrupt_accessors_frame_witness :
    OpenTitanI2cIntr.Nak ≠ OpenTitanI2cIntr.CmdComplete ∧
    (interrupt_asserted (clear_interrupt { zeroRegs with intrState := 0x211, intrEnable := 0x8 }
        OpenTitanI2cIntr.Nak) OpenTitanI2cIntr.Nak = false ∧
      interrupt_asserted (clear_interrupt { zeroRegs with intrState := 0x211, intrEnable := 0x8 }
        OpenTitanI2cIntr.Nak) OpenTitanI2cIntr.CmdComplete
        = interrupt_asserted { zeroRegs with intrState := 0x211, intrEnable := 0x8 }
            OpenTitanI2cIntr.CmdComplete ∧
      clear_interrupt { zeroRegs with intrState := 0x211, intrEnable := 0x8 } OpenTitanI2cIntr.Nak
        = { ({ zeroRegs with intrState := 0x211, intrEnable := 0x8 } : OpenTitanI2c) with
            intrState := (clear_interrupt { zeroRegs with intrState := 0x211, intrEnable := 0x8 }
              OpenTitanI2cIntr.Nak).intrState }) :=
  ⟨by decide,
   (interrupt_accessors_frame { zeroRegs with intrState := 0x211, intrEnable := 0x8 }
      OpenTitanI2cIntr.Nak OpenTitanI2cIntr.CmdComplete (by decide)).2.1⟩

/-- C14 fails for a non-zero 32-bit clock above 1 GHz: at 2 GHz `SysclkKhz` is
2000000, the period is `1000000 / 2000000 = 0` and every `round_up_divide` in
`set_speed` divides by zero; at `2^32 - 999` Hz the sum `I2cDevClockHz + 999`
wraps to 0, so `SysclkKhz` is 0 and the period itself is a division by zero. -/
theorem nonzero_clock_counterexample :
    (2000000000 ≠ 0 ∧ 2000000000 < U32 ∧ clkPeriod 2000000000 = some 0 ∧
      round_up_divide 4000 0 = none ∧ set_speed 2000000000 100 zeroRegs = none) ∧
    (4294966297 ≠ 0 ∧ 4294966297 < U32 ∧ SysclkKhz 4294966297 = 0 ∧
      clkPeriod 4294966297 = none ∧ set_speed 4294966297 100 zeroRegs = none) := by
  decide

/-- C14 as amended. For a 32-bit device clock, the period computed by `set_speed`
is well defined and non-zero exactly when `1 ≤ I2cDevClockHz ≤ 10^9`; in that
range it is `1000000 / ((I2cDevClockHz + 999) / 1000)`, no `round_up_divide`
call divides by zero, and `set_speed` succeeds for every speed. -/
theorem clock_in_range_avoids_zero_divisor (hz : Nat) (h32 : hz < U32) :
    ((1 ≤ hz ∧ hz ≤ 1000000000) ↔ ∃ p, clkPeriod hz = some p ∧ 1 ≤ p) ∧
    ((1 ≤ hz ∧ hz ≤ 1000000000) →
      ∃ p, clkPeriod hz = some p ∧ p = 1000000 / ((hz + 999) / 1000) ∧ 1 ≤ p ∧
        (∀ A, (round_up_divide A p).isSome = true) ∧
        (∀ SpeedKhz r, (set_speed hz SpeedKhz r).isSome = true)) := by
  refine ⟨clkPeriod_pos_iff h32, fun h => ?_⟩
  obtain ⟨p, hp, hp1⟩ := (clkPeriod_pos_iff h32).1 h
  have hw : hz + 999 < U32 := by dsimp only [U32]; omega
  have e := clkPeriod_eq h.1 hw
  rw [hp] at e
  refine ⟨p, hp, Option.some.inj e, hp1, round_up_divide_isSome hp1 (clkPeriod_lt hp),
    fun SpeedKhz r => ?_⟩
  rw [(set_speed_eq SpeedKhz r hp hp1).1]
  rfl

/-- C14 as amended, at a 40 MHz device clock. -/
theorem clock_in_range_avoids_zero_divisor_witness :
    (40000000 < U32 ∧ 1 ≤ 40000000 ∧ 40000000 ≤ 1000000000) ∧
    ∃ p, clkPeriod 40000000 = some p ∧ p = 1000000 / ((40000000 + 999) / 1000) ∧ 1 ≤ p ∧
      (∀ A, (round_up_divide A p).isSome = true) ∧
      (∀ SpeedKhz r, (set_speed 40000000 SpeedKhz r).isSome = true) :=
  ⟨⟨by decide, by decide, by decide⟩,
   (clock_in_range_avoids_zero_divisor 40000000 (by decide)).2 ⟨by decide, by decide⟩⟩

/-- C15 fails for the first pair: at a 40 MHz clock and 100 kHz the values are
`tHigh = 160` and `tLow = 201`, and `set_speed` stores
`timing0 = (201 << 16) | 160`, not `(160 << 16) | 201`. -/
theorem timing0_order_counterexample :
    (computeTimings (busMode 100) 25).map (fun t => (t.tHigh, t.tLow)) = some (160, 201) ∧
    (set_speed 40000000 100 zeroRegs).map (fun r => r.timing0) = some ((201 <<< 16) ||| 160) ∧
    (set_speed 40000000 100 zeroRegs).map (fun r => r.timing0) ≠ some ((160 <<< 16) ||| 201) := by
  decide

/-- C15 as amended. For every speed and every device clock whose period `p` is at
least 1, `set_speed` changes only `timing0 .. timing4` and writes
`timing0 = (tLow << 16) | tHigh`, `timing1 = (tFall << 16) | tRise`,
`timing2 = (thdSta << 16) | tsuSta`, `timing3 = (thdDat << 16) | tsuDat` and
`timing4 = (tBuf << 16) | tsuSto`, where the ten values are those computed by
lines 243-262. -/
theorem set_speed_packs (hz SpeedKhz p : Nat) (r : OpenTitanI2c)
    (hp : clkPeriod hz = some p) (hp1 : 1 ≤ p) :
    ∃ t, computeTimings (busMode SpeedKhz) p = some t ∧
      set_speed hz SpeedKhz r = some { r with
        timing0 := (t.tLow <<< 16) ||| t.tHigh
        timing1 := (t.tFall <<< 16) ||| t.tRise
        timing2 := (t.thdSta <<< 16) ||| t.tsuSta
        timing3 := (t.thdDat <<< 16) ||| t.tsuDat
        timing4 := (t.tBuf <<< 16) ||| t.tsuSto } := by
  have hp32 := clkPeriod_lt hp
  have hm := busMode_lt SpeedKhz
  obtain ⟨h1, h2, h3, h4, h5, h6, h7, h8, h9, h10⟩ := idealTimings_facts hm hp1 hp32
  refine ⟨_, computeTimings_exact hm hp1 hp32, ?_⟩
  rw [(set_speed_eq SpeedKhz r hp hp1).1]
  have b : ∀ {v : Nat}, v < 5002 → v < U16 := fun h => by dsimp only [U16]; omega
  simp only [storeTimings, pack_mod (b h2.2.2) (b h1.2.2), pack_mod (b h3.2.2) (b h4.2.2),
    pack_mod (b h5.2.2) (b h6.2.2), pack_mod (b h7.2.2) (b h8.2.2),
    pack_mod (b h9.2.2) (b h10.2.2)]

/-- C15 as amended, at a 40 MHz device clock and 100 kHz. -/
theorem set_speed_packs_witness :
    (clkPeriod 40000000 = some 25 ∧ 1 ≤ 25) ∧
    ∃ t, computeTimings (busMode 100) 25 = some t ∧
      set_speed 40000000 100 zeroRegs = some { zeroRegs with
        timing0 := (t.tLow <<< 16) ||| t.tHigh
        timing1 := (t.tFall <<< 16) ||| t.tRise
        timing2 := (t.thdSta <<< 16) ||| t.tsuSta
        timing3 := (t.thdDat <<< 16) ||| t.tsuDat
        timing4 := (t.tBuf <<< 16) ||| t.tsuSto } :=
  ⟨⟨by decide, by decide⟩, set_speed_packs 40000000 100 25 zeroRegs (by decide) (by decide)⟩

/-- C16 at `A = 0`, `B = 3`: `A - 1` wraps to `2^32 - 1`, so the code returns the
low 16 bits of `(2^32 - 1) / 3 + 1 = 1431655766`, which is 21846, whereas the
quotient `0 / 3` rounded up is 0. -/
theorem round_up_divide_zero_dividend :
    round_up_divide 0 3 = some 21846 ∧ ceilDiv 0 3 % U16 = 0 ∧
    round_up_divide 0 3 ≠ some (ceilDiv 0 3 % U16) := by
  decide

/-- C17. For every speed and every 32-bit clock period `p ≥ 1`, with `t` the ten
values computed by `set_speed` and stored (unchanged by the packing) in the
register halves: `tLow = max (⌈SpcTlow[mode] / p⌉) (thdDat + 1)` and
`tBuf = max (⌈SpcTBuf[mode] / p⌉) (tsuSta + 1)`, so a quotient that is already
above `thdDat` (`tsuSta`) is kept and otherwise the value is exactly one above
it; the other eight values are the outputs of `round_up_divide` for their
table entries. -/
theorem clamp_is_max (SpeedKhz p : Nat) (r : OpenTitanI2c) (hp1 : 1 ≤ p) (hp32 : p < U32) :
    ∃ t, computeTimings (busMode SpeedKhz) p = some t ∧
      unpackTimings (storeTimings t r) = t ∧
      (∀ hz, clkPeriod hz = some p → set_speed hz SpeedKhz r = some (storeTimings t r)) ∧
      t.tLow = max (ceilDiv (SpcTlow.getD (busMode SpeedKhz) 0) p) (t.thdDat + 1) ∧
      t.tBuf = max (ceilDiv (SpcTBuf.getD (busMode SpeedKhz) 0) p) (t.tsuSta + 1) ∧
      (t.thdDat < ceilDiv (SpcTlow.getD (busMode SpeedKhz) 0) p →
        t.tLow = ceilDiv (SpcTlow.getD (busMode SpeedKhz) 0) p) ∧
      (ceilDiv (SpcTlow.getD (busMode SpeedKhz) 0) p ≤ t.thdDat → t.tLow = t.thdDat + 1) ∧
      (t.tsuSta < ceilDiv (SpcTBuf.getD (busMode SpeedKhz) 0) p →
        t.tBuf = ceilDiv (SpcTBuf.getD (busMode SpeedKhz) 0) p) ∧
      (ceilDiv (SpcTBuf.getD (busMode SpeedKhz) 0) p ≤ t.tsuSta → t.tBuf = t.tsuSta + 1) ∧
      (round_up_divide (SpcThigh.getD (busMode SpeedKhz) 0) p = some t.tHigh ∧
       round_up_divide (20 * 3 / 5) p = some t.tFall ∧
       round_up_divide 120 p = some t.tRise ∧
       round_up_divide (SpcThdSta.getD (busMode SpeedKhz) 0) p = some t.thdSta ∧
       round_up_divide (SpcTsuSta.getD (busMode SpeedKhz) 0) p = some t.tsuSta ∧
       round_up_divide (SpcThdDat.getD (busMode SpeedKhz) 0) p = some t.thdDat ∧
       round_up_divide (SpcTsuDat.getD (busMode SpeedKhz) 0) p = some t.tsuDat ∧
       round_up_divide (SpcTsuSto.getD (busMode SpeedKhz) 0) p = some t.tsuSto) := by
  have hm := busMode_lt SpeedKhz
  obtain ⟨h1, h2, h3, h4, h5, h6, h7, h8, h9, h10⟩ := idealTimings_facts hm hp1 hp32
  obtain ⟨b1, b2, b3, b4, b5, b6, b7, b8, b9, b10⟩ := specNs_bounds hm
  have hu : unpackTimings (storeTimings (idealTimings (busMode SpeedKhz) p) r)
      = idealTimings (busMode SpeedKhz) p := by
    apply unpack_store
    refine ⟨?_, ?_, ?_, ?_, ?_, ?_, ?_, ?_, ?_, ?_⟩ <;> dsimp only [U16] <;> omega
  have rd : ∀ A, (1 ≤ A ∧ A < 5001) → round_up_divide A p = some (ceilDiv A p) :=
    fun A h => (round_up_divide_exact h.1 (by dsimp only [U16]; omega) hp1 hp32).1
  refine ⟨_, computeTimings_exact hm hp1 hp32, hu,
    fun hz hp => (set_speed_eq SpeedKhz r hp hp1).1, rfl, rfl, fun h => ?_, fun h => ?_,
    fun h => ?_, fun h => ?_, rd _ b1, rd 12 (by omega), rd 120 (by omega), rd _ b5, rd _ b6,
    rd _ b7, rd _ b8, rd _ b10⟩
  · exact max_eq_left (Nat.succ_le_of_lt h)
  · exact max_eq_right (Nat.le_succ_of_le h)
  · exact max_eq_left (Nat.succ_le_of_lt h)
  · exact max_eq_right (Nat.le_succ_of_le h)

/-- C17 in Fast-Plus mode at a 25 ns period, where `tLow` keeps its quotient 6 and
at Standard mode where it is raised from 188 to 201. -/
theorem clamp_is_max_witness :
    (1 ≤ 25 ∧ 25 < U32) ∧
    (∃ t, computeTimings (busMode 1000) 25 = some t ∧
      unpackTimings (storeTimings t zeroRegs) = t ∧
      t.tLow = max (ceilDiv (SpcTlow.getD (busMode 1000) 0) 25) (t.thdDat + 1) ∧
      t.tBuf = max (ceilDiv (SpcTBuf.getD (busMode 1000) 0) 25) (t.tsuSta + 1)) ∧
    (computeTimings (busMode 100) 25).map (fun t => (t.tLow, t.thdDat)) = some (201, 200) ∧
    ceilDiv (SpcTlow.getD (busMode 100) 0) 25 = 188 :=
  ⟨⟨by decide, by decide⟩,
   (clamp_is_max 1000 25 zeroRegs (by decide) (by decide)).imp
     (fun _ h => ⟨h.1, h.2.1, h.2.2.2.1, h.2.2.2.2.1⟩),
   by decide, by decide⟩

/-- C18 fails in its last part for clocks above 1 GHz: 2 GHz lies in the stated
range, its computed period is 0, so `round_up_divide` has no result for any
duration, and no count of cycles is defined (the quotient by zero, taken as 0,
gives 0 cycles, which do not last 4000 ns). -/
theorem clock_period_cycles_counterexample :
    (1 ≤ 2000000000 ∧ 2000000000 ≤ U32 - 1000) ∧
    clkPeriod 2000000000 = some 0 ∧ round_up_divide 4000 0 = none ∧
    ¬ (4000 * 2000000000 ≤ ceilDiv 4000 0 * 1000000000) := by
  decide

/-- C18 as amended. For every device clock with `1 ≤ Hz ≤ 2^32 - 1000`:
`SysclkKhz = (Hz + 999) / 1000` without wrapping, `SysclkKhz * 1000 ≥ Hz`, and
the period `p = 1000000 / SysclkKhz` satisfies `p * Hz ≤ 10^9`.  Whenever
`p ≥ 1`, which is the case for `Hz ≤ 10^9`, a count of `⌈t / p⌉` cycles lasts
at least `t` nanoseconds: `⌈t / p⌉ * 10^9 ≥ t * Hz`. -/
theorem clock_period_conservative (hz : Nat) (h1 : 1 ≤ hz) (h2 : hz ≤ U32 - 1000) :
    SysclkKhz hz = (hz + 999) / 1000 ∧ hz ≤ SysclkKhz hz * 1000 ∧
    ∃ p, clkPeriod hz = some p ∧ p = 1000000 / SysclkKhz hz ∧ p * hz ≤ 1000000000 ∧
      (hz ≤ 1000000000 → 1 ≤ p) ∧
      (1 ≤ p → ∀ t, t * hz ≤ ceilDiv t p * 1000000000) := by
  have hw : hz + 999 < U32 := by dsimp only [U32] at h2 ⊢; omega
  have hk := SysclkKhz_eq hw
  have hge : hz ≤ SysclkKhz hz * 1000 := by rw [hk]; omega
  have hk0 : 0 < SysclkKhz hz := by rw [hk]; omega
  have hp : clkPeriod hz = some (1000000 / SysclkKhz hz) := by
    rw [clkPeriod_eq h1 hw, hk]
  have hmul : 1000000 / SysclkKhz hz * SysclkKhz hz ≤ 1000000 := Nat.div_mul_le_self _ _
  have hph : 1000000 / SysclkKhz hz * hz ≤ 1000000000 := by
    calc 1000000 / SysclkKhz hz * hz
        ≤ 1000000 / SysclkKhz hz * (SysclkKhz hz * 1000) := Nat.mul_le_mul_left _ hge
      _ = 1000000 / SysclkKhz hz * SysclkKhz hz * 1000 := by rw [Nat.mul_assoc]
      _ ≤ 1000000 * 1000 := Nat.mul_le_mul_right _ hmul
      _ = 1000000000 := by norm_num
  refine ⟨hk, hge, _, hp, rfl, hph, fun h => ?_, fun hp1 t => ?_⟩
  · rw [Nat.le_div_iff_mul_le hk0, hk]
    omega
  · have hc : t ≤ ceilDiv t (1000000 / SysclkKhz hz) * (1000000 / SysclkKhz hz) := by
      unfold ceilDiv
      generalize 1000000 / SysclkKhz hz = p at hp1
      have h := Nat.lt_mul_div_succ (t + p - 1) (show 0 < p by omega)
      have e : p * ((t + p - 1) / p + 1) = (t + p - 1) / p * p + p := by
        rw [Nat.mul_add, Nat.mul_one, Nat.mul_comm]
      rw [e] at h
      omega
    calc t * hz
        ≤ ceilDiv t (1000000 / SysclkKhz hz) * (1000000 / SysclkKhz hz) * hz :=
          Nat.mul_le_mul_right _ hc
      _ = ceilDiv t (1000000 / SysclkKhz hz) * (1000000 / SysclkKhz hz * hz) := by
          rw [Nat.mul_assoc]
      _ ≤ ceilDiv t (1000000 / SysclkKhz hz) * 1000000000 := Nat.mul_le_mul_left _ hph

/-- C18 as amended, at a 40 MHz device clock (period 25 ns). -/
theorem clock_period_conservative_witness :
    (1 ≤ 40000000 ∧ 40000000 ≤ U32 - 1000) ∧
    SysclkKhz 40000000 = (40000000 + 999) / 1000 ∧ 40000000 ≤ SysclkKhz 40000000 * 1000 ∧
    ∃ p, clkPeriod 40000000 = some p ∧ p = 1000000 / SysclkKhz 40000000 ∧
      p * 40000000 ≤ 1000000000 ∧ (40000000 ≤ 1000000000 → 1 ≤ p) ∧
      (1 ≤ p → ∀ t, t * 40000000 ≤ ceilDiv t p * 1000000000) :=
  ⟨⟨by decide, by decide⟩, clock_period_conservative 40000000 (by decide) (by decide)⟩

/-- C19. For an address below 128, on any bus and with any fuel, every word that
a returning `write` or `read` has pushed is a 13-bit value whose low 8 bits
are its byte field and whose set flag bits are exactly as follows: the address
word has byte `(Addr7 << 1) | rw` and only Start; a write data word has byte
`data[i]` and no flag or only Stop; a read word has as byte a chunk size
between 1 and 255 and ReadB, or ReadB and Stop.  RCont and NAkOk are in none
of these sets, so they are never set. -/
theorem pushed_words_wellformed (bus : Bus) (fuel Addr7 N : Nat) (m : Mmio) (hA : Addr7 < 128) :
    (∀ (data : Buffer) (SkipStop : Bool) (m' : Mmio),
      write bus fuel Addr7 data N SkipStop m = some m' →
      ∃ ws, m'.fmtFifo = m.fmtFifo ++ ws ∧ ∀ w ∈ ws, IsWriteWord Addr7 data w) ∧
    (∀ (buf buf' : Buffer) (b : Bool) (m' : Mmio),
      read bus fuel Addr7 buf N m = some (b, buf', m') →
      ∃ ws, m'.fmtFifo = m.fmtFifo ++ ws ∧ ∀ w ∈ ws, IsReadWord Addr7 w) ∧
    (∀ w byte flags, IsFmtWord w byte flags →
      (FDataRCont ∉ flags → w &&& FDataRCont = 0) ∧
      (FDataNAkOk ∉ flags → w &&& FDataNAkOk = 0)) := by
  refine ⟨fun data SkipStop m' h => write_pushed hA h,
    fun buf buf' b m' h => read_pushed hA h, fun w byte flags h => ⟨fun hn => ?_, fun hn => ?_⟩⟩
  · by_contra hne
    exact hn ((h.2.2 FDataRCont (by decide)).1 hne)
  · by_contra hne
    exact hn ((h.2.2 FDataNAkOk (by decide)).1 hne)

/-- C19 on the quiet bus: a four-byte write and a 300-byte read at address 0x50
return, and all their pushed words are of the stated forms. -/
theorem pushed_words_wellformed_witness :
    0x50 < 128 ∧
    (∃ fuel m', write quietBus fuel 0x50 (fun i => i + 1) 4 false idle = some m' ∧
      ∃ ws, m'.fmtFifo = idle.fmtFifo ++ ws ∧ ∀ w ∈ ws, IsWriteWord 0x50 (fun i => i + 1) w) ∧
    (∃ fuel buf' m', read quietBus fuel 0x50 (fun _ => 0) 300 idle = some (true, buf', m') ∧
      ∃ ws, m'.fmtFifo = idle.fmtFifo ++ ws ∧ ∀ w ∈ ws, IsReadWord 0x50 w) := by
  obtain ⟨F, m', hw, _⟩ := write_returns quietBus_responsive.1 0x50 (fun i => i + 1)
    (show 0x50 < 128 by decide) (show 1 ≤ 4 by decide) (show 4 < U32 by decide) false idle
  obtain ⟨G, buf', mr, hr, _⟩ := read_loop_ok quietBus_responsive (show 0x50 < 128 by decide)
    (show 300 < U32 by decide) (readChunks 300) 0 (fun _ => 0) idle (by omega)
    (fun i _ => quietBus_never_nak _)
  have hr' : read quietBus G 0x50 (fun _ => 0) 300 idle = some (true, buf', mr) := by
    rw [read_eq_loop quietBus G 0x50 (fun _ => 0) (show 300 < U32 by decide) idle]
    exact hr G G le_rfl le_rfl
  exact ⟨by decide,
    ⟨F, m', hw F le_rfl,
      (pushed_words_wellformed quietBus F 0x50 4 idle (by decide)).1 _ _ _ (hw F le_rfl)⟩,
    ⟨G, buf', mr, hr',
      (pushed_words_wellformed quietBus G 0x50 300 idle (by decide)).2.1 _ _ _ _ hr'⟩⟩

/-- C20. For every 32-bit `NumBytes` the loop counter `idx` of `read` takes the
values `255 * j`: while `255 * j < NumBytes` the next value `255 * (j + 1)` is
below `2^32` (no wrap, as `2^32 - 1 = 255 * 16843009`) and
`NumBytes - idx` is at least 1 (no underflow).  On a responsive bus that never
shows NAK the loop therefore ends: with `readChunks N = ⌈N / 255⌉` it needs
exactly `readChunks N + 1` evaluations of its condition (it runs out of fuel
with fewer and returns `true` otherwise), makes one NAK check per iteration,
and `read` returns `true`. -/
theorem read_loop_terminates (bus : Bus) (Addr7 N : Nat) (buf : Buffer) (m : Mmio)
    (hb : bus.Responsive) (hquiet : ∀ n, ¬ bus.nakAt n) (hA : Addr7 < 128) (hN : N < U32) :
    U32 - 1 = 255 * 16843009 ∧
    (∀ j, 255 * j < N →
      (255 * j + UINT8_MAX) % U32 = 255 * (j + 1) ∧ sub32 N (255 * j) = N - 255 * j ∧
      1 ≤ sub32 N (255 * j) ∧ j < readChunks N) ∧
    (N ≤ 255 * readChunks N ∧ 255 * readChunks N < U32) ∧
    (∃ S buf' m', m'.intrLoads = m.intrLoads + readChunks N ∧ ∀ spin, S ≤ spin →
      (∀ fuel, fuel ≤ readChunks N → read_loop bus spin Addr7 N fuel 0 buf m = none) ∧
      (∀ fuel, readChunks N + 1 ≤ fuel →
        read_loop bus spin Addr7 N fuel 0 buf m = some (true, buf', m'))) ∧
    (∃ F buf' m', ∀ fuel, F ≤ fuel → read bus fuel Addr7 buf N m = some (true, buf', m')) := by
  refine ⟨by decide, fun j hj => ?_, ?_, ?_, ?_⟩
  · unfold sub32 readChunks
    dsimp only [UINT8_MAX, U32] at hN ⊢
    omega
  · unfold readChunks
    dsimp only [U32] at hN ⊢
    omega
  · exact read_loop_iterations hb hA hN (readChunks N) 0 buf m (by omega) (fun i _ => hquiet _)
  · obtain ⟨F, buf', m', h, _⟩ := read_loop_ok hb hA hN (readChunks N) 0 buf m (by omega)
      (fun i _ => hquiet _)
    refine ⟨F, buf', m', fun fuel hf => ?_⟩
    rw [read_eq_loop bus fuel Addr7 buf hN m]
    exact h fuel fuel hf hf

/-- C20 on the quiet bus for the largest request, `NumBytes = 2^32 - 1`. -/
theorem read_loop_terminates_witness :
    (quietBus.Responsive ∧ (∀ n, ¬ quietBus.nakAt n) ∧ 0x50 < 128 ∧ 4294967295 < U32) ∧
    readChunks 4294967295 = 16843009 ∧
    (∃ S buf' m', m'.intrLoads = idle.intrLoads + readChunks 4294967295 ∧ ∀ spin, S ≤ spin →
      (∀ fuel, fuel ≤ readChunks 4294967295 →
        read_loop quietBus spin 0x50 4294967295 fuel 0 (fun _ => 0) idle = none) ∧
      (∀ fuel, readChunks 4294967295 + 1 ≤ fuel →
        read_loop quietBus spin 0x50 4294967295 fuel 0 (fun _ => 0) idle
          = some (true, buf', m'))) ∧
    (∃ F buf' m', ∀ fuel, F ≤ fuel →
      read quietBus fuel 0x50 (fun _ => 0) 4294967295 idle = some (true, buf', m')) :=
  ⟨⟨quietBus_responsive, quietBus_never_nak, by decide, by decide⟩, by decide,
   (read_loop_terminates quietBus 0x50 4294967295 (fun _ => 0) idle quietBus_responsive
      quietBus_never_nak (by decide) (by decide)).2.2.2.1,
   (read_loop_terminates quietBus 0x50 4294967295 (fun _ => 0) idle quietBus_responsive
      quietBus_never_nak (by decide) (by decide)).2.2.2.2⟩

end I2c
